import Mathlib

/-
Verification development for the grid / A* pathfinding module (src/main.py).

The Python module is embedded shallowly:
  * `Point = Tuple[int, int]`            ↦ `Pt := Int × Int`
  * the direction constant lists         ↦ `CARDINALS`, `DIAGONALS`, `ADJACENTS`
  * class `Node` (immutable part)        ↦ structure `Node` (value, x, y);
    the per-search mutable fields `cost` / `parent` are modelled as explicit
    state (`SearchState`) keyed by position, which is exactly the equality
    used by the Python sets (`Node.__eq__` / `__hash__` compare positions).
  * class `Grid`                         ↦ structure `Grid`
  * `Grid.__getitem__` / `Mapping.get`   ↦ `Grid.get?` (`none` = KeyError),
    including Python list-index semantics: `nodes[index]` only raises
    `IndexError` when `index < -len(nodes)` or `index ≥ len(nodes)`; an
    in-range negative index addresses from the end of the list.  The code
    computes `index = x + width*y` with no `x < width` check.
  * `math.sqrt`-valued costs             ↦ the exact value `√g2 + √h2` is
    carried as the pair of integer radicands (`Cost.val g2 h2`); comparisons
    are decided exactly by integer arithmetic (`sqrtSumLE` below, proved
    correct against `Real.sqrt` in `sqrtSumLE_correct`).  Every number the
    Python code compares is of the form `sqrt(int) + sqrt(int)` or `inf`.
  * the `while to_visit:` loop           ↦ fuel-based recursion `astarLoop`;
    the fuel `g.nodes.length + 2` is proved sufficient (claim C10), so the
    `Option` never returns `none`.
  * `min(to_visit, key=...)` iterates a Python set; Python's `min` keeps the
    first element whose key is strictly smaller than the current best.  The
    iteration order of a `set` is implementation defined; we determinize it
    as insertion order (`toVisit` is kept as an insertion-ordered list and
    `minByCost` folds left with a strict comparison).
  * `text.strip()` / `line.strip()`      ↦ `strip` on the character list,
    with CPython's whitespace table (`isPyWS`); `str.splitlines` on an
    already-stripped text is `splitNL`: splitting at Python's line-boundary
    characters, `\r\n` counting as one boundary and no trailing empty
    piece arising (stripping removes the boundary characters at both ends).
The animated `debug()` printer and the `time.sleep` call are I/O observers
with no effect on the computed state and are not modelled.
-/

namespace PF

/-- 2D integer point, mirroring `Point = Tuple[int, int]`. -/
abbrev Pt := Int × Int

/-- `CARDINALS: list[Point] = [(0, -1), (-1, 0), (1, 0), (0, 1)]` -/
def CARDINALS : List Pt := [(0, -1), (-1, 0), (1, 0), (0, 1)]

/-- `DIAGONALS: list[Point] = [(-1, -1), (1, -1), (-1, 1), (1, 1)]` -/
def DIAGONALS : List Pt := [(-1, -1), (1, -1), (-1, 1), (1, 1)]

/-- `ADJACENTS = [DIAGONALS[0], CARDINALS[0], DIAGONALS[1], *CARDINALS[1:3], DIAGONALS[2], CARDINALS[3], DIAGONALS[3]]` -/
def ADJACENTS : List Pt :=
  [DIAGONALS[0]!, CARDINALS[0]!, DIAGONALS[1]!] ++ ((CARDINALS.drop 1).take 2) ++
    [DIAGONALS[2]!, CARDINALS[3]!, DIAGONALS[3]!]

theorem ADJACENTS_eq :
    ADJACENTS = [(-1, -1), (0, -1), (1, -1), (-1, 0), (1, 0), (-1, 1), (0, 1), (1, 1)] := by
  decide

/-- The immutable part of Python's `Node` (`value`, `x`, `y`). -/
structure Node where
  value : Char
  x : Int
  y : Int
deriving DecidableEq

instance : Inhabited Node := ⟨⟨'#', 0, 0⟩⟩

/-- `Node.position` property: `(self.x, self.y)`. -/
def Node.position (n : Node) : Pt := (n.x, n.y)

/-- Python's `Grid(nodes, width, height)`.  `from_text` only ever produces
natural-number dimensions, so they are carried as `Nat`. -/
structure Grid where
  nodes : List Node
  width : Nat
  height : Nat
deriving DecidableEq

/-- The characters removed by Python's `str.strip()`: CPython's Unicode
whitespace table (`0x09`-`0x0D`, `0x1C`-`0x1F`, space, `0x85`, `0xA0`,
`0x1680`, `0x2000`-`0x200A`, `0x2028`, `0x2029`, `0x202F`, `0x205F`,
`0x3000`). -/
def isPyWS (c : Char) : Bool :=
  ('\x09' ≤ c && c ≤ '\x0d') || ('\x1c' ≤ c && c ≤ '\x1f') || c = ' ' ||
    c = '\x85' || c = '\xa0' || c = '\u1680' || ('\u2000' ≤ c && c ≤ '\u200a') ||
    c = '\u2028' || c = '\u2029' || c = '\u202f' || c = '\u205f' || c = '\u3000'

/-- `str.strip()` on the character list of a string. -/
def strip (l : List Char) : List Char :=
  ((l.dropWhile isPyWS).reverse.dropWhile isPyWS).reverse

/-- The line boundaries of Python's `str.splitlines()`: `\n`, `\r`, `\v`,
`\f`, `0x1C`-`0x1E`, `0x85`, `U+2028`, `U+2029` (with `\r\n` counting as a
single boundary, handled in `splitNL`). -/
def isLineBreak (c : Char) : Bool :=
  c = '\n' || c = '\x0d' || c = '\x0b' || c = '\x0c' || c = '\x1c' || c = '\x1d' ||
    c = '\x1e' || c = '\x85' || c = '\u2028' || c = '\u2029'

/-- Splitting at Python's line boundaries, `\r\n` acting as one boundary:
`str.splitlines` on a text with no leading or trailing boundary characters
(`from_text` only splits already-stripped text, and every boundary character
is also stripped whitespace, so this covers every call site). -/
def splitNL : List Char → List (List Char)
  | [] => [[]]
  | '\x0d' :: '\n' :: rest => [] :: splitNL rest
  | c :: rest =>
    if isLineBreak c then [] :: splitNL rest
    else
      match splitNL rest with
      | [] => [[c]]
      | h :: t => (c :: h) :: t

/-- The stripped lines of `text.strip().splitlines()`, each line further
stripped (the source calls `line.strip()` at each use site).  A stripped
empty text has no lines at all (`''.splitlines() == []`). -/
def stripLines (text : String) : List (List Char) :=
  let t := strip text.toList
  if t = [] then [] else (splitNL t).map strip

/-- `Grid.from_text`: every character of every stripped line becomes a node at
`(column, row)`; `width` is overwritten each iteration, so it ends up as the
length of the *last* stripped line (0 when there are no lines); `height` is
the number of lines.  No validation of any kind is performed. -/
def fromText (text : String) : Grid :=
  let ls := stripLines text
  { nodes := (ls.enum.map (fun yl =>
      yl.2.enum.map (fun xc => Node.mk xc.2 (Int.ofNat xc.1) (Int.ofNat yl.1)))).flatten
    width := ((ls.getLast?).map List.length).getD 0
    height := ls.length }

/-- `Grid.__getitem__` (and `Mapping.get(point, None)` built on it):
`index = x + self.width * y; return self.nodes[index]`, where only an actual
`IndexError` becomes `KeyError`/`None`.  Python list indexing accepts any
`index` with `-len ≤ index < len`; negative indices count from the end. -/
def Grid.get? (g : Grid) (p : Pt) : Option Node :=
  let idx : Int := p.1 + (g.width : Int) * p.2
  let n : Int := (g.nodes.length : Int)
  if 0 ≤ idx then g.nodes[idx.toNat]?
  else if -n ≤ idx then g.nodes[(idx + n).toNat]?
  else none

/-- `Grid.neighbours` on a position: for each offset, skip when the target
has a negative coordinate, else look up with `get(point, None)`; `None`
results are filtered out (`filter(None, points)`). -/
def Grid.neighboursP (g : Grid) (p : Pt) (dirs : List Pt) : List Node :=
  dirs.filterMap (fun d =>
    if p.1 + d.1 < 0 ∨ p.2 + d.2 < 0 then none
    else g.get? (p.1 + d.1, p.2 + d.2))

/-- `Grid.neighbours(node, directions)` reads only `node.x`, `node.y`. -/
def Grid.neighbours (g : Grid) (n : Node) (dirs : List Pt) : List Node :=
  g.neighboursP n.position dirs

def wall : Char := '#'

/-- `Grid.traversable`: `node.value != '#'`. -/
def Grid.traversable (_g : Grid) (n : Node) : Bool := n.value != wall

/-- The squared Euclidean distance; `Grid.distance(a, b)` is `√(dist2 a b)`. -/
def dist2 (a b : Pt) : Int := (a.1 - b.1) ^ 2 + (a.2 - b.2) ^ 2

/-- A value that can sit in a node's `cost` field: `float('inf')`, or the
exact real `√g2 + √h2` represented by its two integer radicands (every cost
the program computes is `distance(u, v) + distance(goal, v)`, and the initial
`distance(start, goal)` is `√d + √0`). -/
inductive Cost where
  | inf : Cost
  | val : Int → Int → Cost
deriving DecidableEq

/-- Decides `√a + √b ≤ √c + √d` by integer arithmetic (repeated squaring).
With `m = a + b`, `n = c + d`, `p = ab`, `q = cd`, the inequality is
equivalent to `m + 2√p ≤ n + 2√q`; both sides of each subsequent squaring
step are kept nonnegative.  Correctness: `sqrtSumLE_correct`. -/
def sqrtSumLE (a b c d : Int) : Bool :=
  let p := a * b
  let q := c * d
  if a + b ≤ c + d then
    let t := c + d - (a + b)
    decide (4*p ≤ t^2 + 4*q) || decide ((4*p - t^2 - 4*q)^2 ≤ 16 * t^2 * q)
  else
    let t := a + b - (c + d)
    decide (4*p + t^2 ≤ 4*q) && decide (16 * t^2 * p ≤ (4*q - 4*p - t^2)^2)

/-- Decides `√a + √b < √c + √d`. -/
def sqrtSumLT (a b c d : Int) : Bool := !(sqrtSumLE c d a b)

/-- The `<` of the Python floats actually compared by the program
(`node.cost < cost`, and the key comparison inside `min`). -/
def Cost.lt : Cost → Cost → Bool
  | Cost.inf, _ => false
  | Cost.val _ _, Cost.inf => true
  | Cost.val a b, Cost.val c d => sqrtSumLT a b c d

/-- The `≤` on the same values (used by the spec's skip rule, claim C4). -/
def Cost.le : Cost → Cost → Bool
  | Cost.inf, Cost.inf => true
  | Cost.inf, Cost.val _ _ => false
  | Cost.val _ _, Cost.inf => true
  | Cost.val a b, Cost.val c d => sqrtSumLE a b c d

/-- The per-search mutable state: each node's `cost` and `parent` fields
(keyed by position, the Node equality), the `to_visit` set (insertion
ordered) and the `already_visited` set (in closing order). -/
structure SearchState where
  cost : Pt → Cost
  parent : Pt → Option Pt
  toVisit : List Pt
  visited : List Pt

/-- `set.add`: append only when absent. -/
def pushUnique (l : List Pt) (p : Pt) : List Pt :=
  if p ∈ l then l else l ++ [p]

/-- `min(to_visit, key=lambda x: x.cost)`: Python's `min` keeps the first
element whose key is strictly below the current best. -/
def minByCost (c : Pt → Cost) (x : Pt) (xs : List Pt) : Pt :=
  xs.foldl (fun best y => if (c y).lt (c best) then y else best) x

/-- One step of the `for node in nodes:` relaxation body of `Grid.astar`:
skip walls, skip `already_visited` nodes, compute
`cost = distance(visiting, node) + distance(goal, node)`, skip when
`node.cost < cost`, otherwise set `parent`, `cost`, and add to `to_visit`. -/
def relaxOne (g : Grid) (goalP visiting : Pt) (st : SearchState) (n : Node) : SearchState :=
  if ¬ g.traversable n then st
  else if n.position ∈ st.visited then st
  else
    let c := Cost.val (dist2 visiting n.position) (dist2 goalP n.position)
    if (st.cost n.position).lt c then st
    else
      { st with
        parent := fun q => if q = n.position then some visiting else st.parent q
        cost := fun q => if q = n.position then c else st.cost q
        toVisit := pushUnique st.toVisit n.position }

/-- The spec's variant of the same body (claim C4): skip when
`node.cost ≤ cost` instead of `node.cost < cost`. -/
def relaxOneLE (g : Grid) (goalP visiting : Pt) (st : SearchState) (n : Node) : SearchState :=
  if ¬ g.traversable n then st
  else if n.position ∈ st.visited then st
  else
    let c := Cost.val (dist2 visiting n.position) (dist2 goalP n.position)
    if (st.cost n.position).le c then st
    else
      { st with
        parent := fun q => if q = n.position then some visiting else st.parent q
        cost := fun q => if q = n.position then c else st.cost q
        toVisit := pushUnique st.toVisit n.position }

/-- Path reconstruction: `path.append(visiting)` then follow `parent` links
until `None` (the source's inner `while True` loop, given fuel). -/
def chainFrom (parent : Pt → Option Pt) : Nat → Pt → Option (List Pt)
  | 0, _ => none
  | fuel + 1, p =>
    match parent p with
    | none => some [p]
    | some q => (chainFrom parent fuel q).map (fun l => p :: l)

/-- The `while to_visit:` loop of `Grid.astar`, parameterized by the
direction set used for expansion and by the relaxation body.  Returning
`none` means the fuel ran out; `astar_fuel_sufficient` (claim C10) shows the
fuel used by `astar` never does. -/
def astarLoop (g : Grid) (dirs : List Pt)
    (relax : Grid → Pt → Pt → SearchState → Node → SearchState) (goalP : Pt) :
    Nat → SearchState → Option (List Pt)
  | 0, _ => none
  | fuel + 1, st =>
    match st.toVisit with
    | [] => some []
    | x :: xs =>
      let visiting := minByCost st.cost x xs
      let st1 : SearchState :=
        { st with
          visited := st.visited ++ [visiting]
          toVisit := st.toVisit.erase visiting }
      if visiting = goalP then
        (chainFrom st1.parent st1.visited.length visiting).map List.reverse
      else
        astarLoop g dirs relax goalP fuel
          ((g.neighboursP visiting dirs).foldl (relax g goalP visiting) st1)

/-- The state after `clear_nodes()`, `start.parent = None`,
`start.cost = distance(start, goal)`, `to_visit = {start}`. -/
def astarInit (s goalP : Pt) : SearchState :=
  { cost := fun p => if p = s then Cost.val (dist2 s goalP) 0 else Cost.inf
    parent := fun _ => none
    toVisit := [s]
    visited := [] }

/-- `Grid.astar` generalized over the direction set handed to
`Grid.neighbours` (the source fixes `Directions.adjacent` via
`self.adjacent(visiting)`). -/
def astarWithDirs (g : Grid) (dirs : List Pt) (s goalP : Pt) : Option (List Pt) :=
  astarLoop g dirs relaxOne goalP (g.nodes.length + 2) (astarInit s goalP)

/-- `Grid.astar(start, goal)`.  The source's loop has no fuel; claim C10
proves the fuel `g.nodes.length + 2` is never exhausted, so `getD []` is
only the type-level totalization. -/
def astar (g : Grid) (s goalP : Pt) : List Pt :=
  (astarWithDirs g ADJACENTS s goalP).getD []

/-- The run of `astar` one would get if the relaxation skipped on
`node.cost ≤ cost` as the spec asserts (claim C4). -/
def astarSkipLE (g : Grid) (s goalP : Pt) : Option (List Pt) :=
  astarLoop g ADJACENTS relaxOneLE goalP (g.nodes.length + 2) (astarInit s goalP)

/-! ### Specification-side notions -/

/-- In-bounds in the sense of the spec: `[0,width) × [0,height)`. -/
def inBounds (g : Grid) (p : Pt) : Prop :=
  0 ≤ p.1 ∧ p.1 < (g.width : Int) ∧ 0 ≤ p.2 ∧ p.2 < (g.height : Int)

instance (g : Grid) (p : Pt) : Decidable (inBounds g p) :=
  inferInstanceAs (Decidable (0 ≤ p.1 ∧ p.1 < (g.width : Int) ∧ 0 ≤ p.2 ∧ p.2 < (g.height : Int)))

/-- The value stored at a point, through the program's own lookup. -/
def traversableAt (g : Grid) (p : Pt) : Bool :=
  match g.get? p with
  | some n => g.traversable n
  | none => false

/-- Geometric 8-connectivity: the difference is one of the eight offsets. -/
def step8 (a b : Pt) : Prop := (b.1 - a.1, b.2 - a.2) ∈ ADJACENTS

instance (a b : Pt) : Decidable (step8 a b) :=
  inferInstanceAs (Decidable ((b.1 - a.1, b.2 - a.2) ∈ ADJACENTS))

/-- Boolean chain check: every consecutive pair is 8-adjacent. -/
def chain8 : List Pt → Bool
  | [] => true
  | [_] => true
  | a :: b :: rest => decide (step8 a b) && chain8 (b :: rest)

theorem chain8_iff_chain' (l : List Pt) : chain8 l = true ↔ l.Chain' step8 := by
  match l with
  | [] => simp [chain8]
  | [a] => simp [chain8]
  | a :: b :: rest =>
    simp [chain8, List.chain'_cons, chain8_iff_chain' (b :: rest), and_comm]

/-- A traversable 8-connected route from `s` to `t` through in-bounds cells:
the spec's notion of reachability. -/
def IsPath (g : Grid) (l : List Pt) (s t : Pt) : Prop :=
  l ≠ [] ∧ l.head? = some s ∧ l.getLast? = some t ∧
    (∀ p ∈ l, inBounds g p ∧ traversableAt g p = true) ∧ chain8 l = true

instance (g : Grid) (l : List Pt) (s t : Pt) : Decidable (IsPath g l s t) :=
  inferInstanceAs (Decidable (l ≠ [] ∧ l.head? = some s ∧ l.getLast? = some t ∧
    (∀ p ∈ l, inBounds g p ∧ traversableAt g p = true) ∧ chain8 l = true))

/-- The edge relation the algorithm actually expands: `b` is yielded by the
adjacent-direction neighbour enumeration at `a` (index wrap-around included)
and is traversable. -/
def algoEdge (g : Grid) (a b : Pt) : Prop :=
  ∃ n ∈ g.neighboursP a ADJACENTS, n.position = b ∧ g.traversable n = true

instance (g : Grid) (a b : Pt) : Decidable (algoEdge g a b) :=
  inferInstanceAs (Decidable (∃ n ∈ g.neighboursP a ADJACENTS, n.position = b ∧ g.traversable n = true))

/-- Reachability in the algorithm's own edge relation. -/
inductive AlgoReach (g : Grid) (s : Pt) : Pt → Prop where
  | refl : AlgoReach g s s
  | step {p q : Pt} : AlgoReach g s p → algoEdge g p q → AlgoReach g s q

/-- The spec's Grid invariant: `len(nodes) == width * height` and the cell at
flat index `i` sits at position `(i % width, i / width)`. -/
def WellFormed (g : Grid) : Prop :=
  g.nodes.length = g.width * g.height ∧
    ∀ i < g.nodes.length,
      (g.nodes[i]?).map Node.position =
        some (((i % g.width : Nat) : Int), ((i / g.width : Nat) : Int))

instance (g : Grid) : Decidable (WellFormed g) :=
  inferInstanceAs (Decidable (g.nodes.length = g.width * g.height ∧
    ∀ i < g.nodes.length,
      (g.nodes[i]?).map Node.position =
        some (((i % g.width : Nat) : Int), ((i / g.width : Nat) : Int))))

/-- The total cost of a path as the claims measure it: the sum of the exact
Euclidean distances between consecutive cells. -/
noncomputable def pathCostR : List Pt → ℝ
  | [] => 0
  | [_] => 0
  | a :: b :: rest => Real.sqrt ((dist2 a b : Int) : ℝ) + pathCostR (b :: rest)

/-- What the spec asserts `neighbours` yields (claim C5): exactly the
positions `(x+dx, y+dy)` that fall inside `[0,width) × [0,height)`, in the
direction set's order. -/
def neighboursClaim (g : Grid) (n : Node) (dirs : List Pt) : List Pt :=
  dirs.filterMap (fun d =>
    if inBounds g (n.x + d.1, n.y + d.2) then some (n.x + d.1, n.y + d.2) else none)

/-- What the spec asserts about `get` (claim C6): failure exactly outside
`[0,width) × [0,height)`, and the cell at `p` otherwise. -/
def getClaim (g : Grid) (p : Pt) : Prop :=
  (¬ inBounds g p → g.get? p = none) ∧
    (inBounds g p → (g.get? p).map Node.position = some p)

instance (g : Grid) (p : Pt) : Decidable (getClaim g p) :=
  inferInstanceAs (Decidable ((¬ inBounds g p → g.get? p = none) ∧
    (inBounds g p → (g.get? p).map Node.position = some p)))

/-- Malformed input in the sense of the spec (claim C7): zero stripped lines,
or stripped lines of differing lengths. -/
def Malformed (text : String) : Prop :=
  stripLines text = [] ∨
    ∃ l ∈ stripLines text, l.length ≠ (((stripLines text).head?).map List.length).getD 0

instance (text : String) : Decidable (Malformed text) :=
  inferInstanceAs (Decidable (stripLines text = [] ∨
    ∃ l ∈ stripLines text, l.length ≠ (((stripLines text).head?).map List.length).getD 0))

/-! ### Concrete grids used by the claims -/

/-- The fully open 2×2 grid. -/
def grid22 : Grid := fromText "..\n.."

/-- The pocket grid of claim C1: start `S` at (2,3), goal `G` at (2,0),
separated by the wall row `.###.`. -/
def gridPocket : Grid := fromText "..G..\n.###.\n.....\n..S.."

/-- Two wall columns pieces with an open bottom row: (2,0) and (0,0) are
8-connected only through the bottom row. -/
def gridTwoCol : Grid := fromText ".#.\n.#.\n..."

/-- A wall column fully separating column 0 from column 2. -/
def gridSplit : Grid := fromText ".#.\n.#."

/-- The spec's 3×1 blocked scenario. -/
def gridRow3 : Grid := fromText ".#."

/-- The fully open 3×2 grid. -/
def gridOpen32 : Grid := fromText "...\n..."

/-- The fully open 3×1 grid of the spec's minimal scenario. -/
def gridRow1 : Grid := fromText "..."

/-- Three wall cells in column 1 with a fully open column 3 at the right
edge; exhibits the relaxation tie behaviour of claim C4. -/
def gridColumns : Grid := fromText ".#..\n.#..\n.#.."

def emptyText : String := ""

def raggedText : String := "ab\nc"

/-! ### Generic helper lemmas -/

theorem mem_of_getElemQ {α : Type} {l : List α} {n : ℕ} {a : α}
    (h : l[n]? = some a) : a ∈ l := by
  have hn : n < l.length := by
    by_contra hc
    simp [List.getElem?_eq_none_iff.2 (Nat.le_of_not_lt hc)] at h
  rw [List.getElem?_eq_getElem hn] at h
  have hm := List.getElem_mem hn
  rwa [Option.some_inj.1 h] at hm

theorem mem_pushUnique_self (l : List Pt) (p : Pt) : p ∈ pushUnique l p := by
  unfold pushUnique
  split
  · assumption
  · simp

theorem mem_pushUnique_of_mem (l : List Pt) (p q : Pt) (h : q ∈ l) :
    q ∈ pushUnique l p := by
  unfold pushUnique
  split
  · assumption
  · simp [h]

theorem mem_of_mem_pushUnique (l : List Pt) (p q : Pt) (h : q ∈ pushUnique l p) :
    q ∈ l ∨ q = p := by
  unfold pushUnique at h
  split at h
  · exact Or.inl h
  · simpa using h

/-- `get?` only returns nodes of the grid's node list. -/
theorem get?_mem {g : Grid} {p : Pt} {m : Node} (h : g.get? p = some m) :
    m ∈ g.nodes := by
  simp only [Grid.get?] at h
  split at h
  · exact mem_of_getElemQ h
  · split at h
    · exact mem_of_getElemQ h
    · exact absurd h (by simp)

/-- With the spec's Grid invariant, an in-bounds lookup returns the cell at
exactly the requested position. -/
theorem get?_inBounds {g : Grid} (hw : WellFormed g) {p : Pt} (hb : inBounds g p) :
    (g.get? p).map Node.position = some p := by
  obtain ⟨p1, p2⟩ := p
  obtain ⟨hx0, hxw, hy0, hyh⟩ := hb
  simp only at hx0 hxw hy0 hyh
  have hw0 : 0 < (g.width : Int) := lt_of_le_of_lt hx0 hxw
  obtain ⟨x, rfl⟩ : ∃ x : ℕ, p1 = (x : Int) := ⟨p1.toNat, (Int.toNat_of_nonneg hx0).symm⟩
  obtain ⟨y, rfl⟩ : ∃ y : ℕ, p2 = (y : Int) := ⟨p2.toNat, (Int.toNat_of_nonneg hy0).symm⟩
  have hxw' : x < g.width := by exact_mod_cast hxw
  have hyh' : y < g.height := by exact_mod_cast hyh
  have hidx : ((x : Int) + (g.width : Int) * (y : Int)) = ((x + g.width * y : ℕ) : Int) := by
    push_cast; ring
  have hlen : x + g.width * y < g.nodes.length := by
    rw [hw.1]
    calc x + g.width * y < g.width + g.width * y := by omega
    _ = g.width * (y + 1) := by ring
    _ ≤ g.width * g.height := Nat.mul_le_mul_left _ (by omega)
  unfold Grid.get?
  rw [hidx, if_pos (by exact_mod_cast Nat.zero_le _)]
  have ht : ((x + g.width * y : ℕ) : Int).toNat = x + g.width * y := Int.toNat_ofNat _
  rw [ht]
  have h2 := hw.2 (x + g.width * y) hlen
  rw [h2, Nat.add_mul_mod_self_left, Nat.mod_eq_of_lt hxw',
    Nat.add_mul_div_left _ _ (by omega : 0 < g.width), Nat.div_eq_of_lt hxw']
  simp

/-! ### Exact-square-root comparison: correctness of `sqrtSumLE` -/

theorem le_of_sq_le_sq (a b : ℝ) (ha : 0 ≤ a) (hb : 0 ≤ b) (h : a ^ 2 ≤ b ^ 2) : a ≤ b := by
  have h2 := Real.sqrt_le_sqrt h
  rwa [Real.sqrt_sq ha, Real.sqrt_sq hb] at h2

theorem two_sqrt_le_add (p q t : ℝ) (hp : 0 ≤ p) (hq : 0 ≤ q) (ht : 0 ≤ t) :
    2 * Real.sqrt p ≤ t + 2 * Real.sqrt q ↔
      (4 * p ≤ t ^ 2 + 4 * q ∨ (4 * p - t ^ 2 - 4 * q) ^ 2 ≤ 16 * t ^ 2 * q) := by
  have hsp := Real.sq_sqrt hp
  have hsq := Real.sq_sqrt hq
  have hnp := Real.sqrt_nonneg p
  have hnq := Real.sqrt_nonneg q
  constructor
  · intro h
    have h2 := pow_le_pow_left₀ (by positivity) h 2
    by_cases hA : 4 * p ≤ t ^ 2 + 4 * q
    · exact Or.inl hA
    · refine Or.inr ?_
      have hu : 4 * p - t ^ 2 - 4 * q ≤ 4 * t * Real.sqrt q := by nlinarith
      have hu0 : 0 ≤ 4 * p - t ^ 2 - 4 * q := by nlinarith
      have h3 := pow_le_pow_left₀ hu0 hu 2
      nlinarith
  · intro h
    rcases h with hA | hB
    · refine le_of_sq_le_sq _ _ (by positivity) (by positivity) ?_
      nlinarith
    · have hru : Real.sqrt ((4 * p - t ^ 2 - 4 * q) ^ 2) ≤
          Real.sqrt ((4 * t * Real.sqrt q) ^ 2) := by
        refine Real.sqrt_le_sqrt ?_
        nlinarith
      rw [Real.sqrt_sq_eq_abs, Real.sqrt_sq (by positivity)] at hru
      have hu : 4 * p - t ^ 2 - 4 * q ≤ 4 * t * Real.sqrt q :=
        le_trans (le_abs_self _) hru
      refine le_of_sq_le_sq _ _ (by positivity) (by positivity) ?_
      nlinarith

theorem add_two_sqrt_le (p q t : ℝ) (hp : 0 ≤ p) (hq : 0 ≤ q) (ht : 0 ≤ t) :
    t + 2 * Real.sqrt p ≤ 2 * Real.sqrt q ↔
      (4 * p + t ^ 2 ≤ 4 * q ∧ 16 * t ^ 2 * p ≤ (4 * q - 4 * p - t ^ 2) ^ 2) := by
  have hsp := Real.sq_sqrt hp
  have hsq := Real.sq_sqrt hq
  have hnp := Real.sqrt_nonneg p
  have hnq := Real.sqrt_nonneg q
  constructor
  · intro h
    have h2 := pow_le_pow_left₀ (by positivity) h 2
    have h1 : 4 * p + t ^ 2 ≤ 4 * q := by nlinarith
    refine ⟨h1, ?_⟩
    have hu : 4 * t * Real.sqrt p ≤ 4 * q - 4 * p - t ^ 2 := by nlinarith
    have h3 := pow_le_pow_left₀ (by positivity) hu 2
    nlinarith
  · rintro ⟨h1, h2⟩
    have hru : Real.sqrt ((4 * t * Real.sqrt p) ^ 2) ≤
        Real.sqrt ((4 * q - 4 * p - t ^ 2) ^ 2) := by
      refine Real.sqrt_le_sqrt ?_
      nlinarith
    rw [Real.sqrt_sq (by positivity), Real.sqrt_sq_eq_abs] at hru
    have hu : 4 * t * Real.sqrt p ≤ 4 * q - 4 * p - t ^ 2 := by
      have habs : |4 * q - 4 * p - t ^ 2| = 4 * q - 4 * p - t ^ 2 := abs_of_nonneg (by nlinarith)
      rwa [habs] at hru
    refine le_of_sq_le_sq _ _ (by positivity) (by positivity) ?_
    nlinarith

/-- The integer procedure `sqrtSumLE` decides exactly the real inequality
`√a + √b ≤ √c + √d`, i.e. the comparison the Python code performs on its
`sqrt`-sum float costs. -/
theorem sqrtSumLE_correct (a b c d : Int) (ha : 0 ≤ a) (hb : 0 ≤ b) (hc : 0 ≤ c)
    (hd : 0 ≤ d) :
    sqrtSumLE a b c d = true ↔
      Real.sqrt (a : ℝ) + Real.sqrt (b : ℝ) ≤ Real.sqrt (c : ℝ) + Real.sqrt (d : ℝ) := by
  have ha' : (0 : ℝ) ≤ (a : ℝ) := by exact_mod_cast ha
  have hb' : (0 : ℝ) ≤ (b : ℝ) := by exact_mod_cast hb
  have hc' : (0 : ℝ) ≤ (c : ℝ) := by exact_mod_cast hc
  have hd' : (0 : ℝ) ≤ (d : ℝ) := by exact_mod_cast hd
  have hsa := Real.sq_sqrt ha'
  have hsb := Real.sq_sqrt hb'
  have hsc := Real.sq_sqrt hc'
  have hsd := Real.sq_sqrt hd'
  have hab : Real.sqrt ((a : ℝ) * b) = Real.sqrt a * Real.sqrt b := Real.sqrt_mul ha' _
  have hcd : Real.sqrt ((c : ℝ) * d) = Real.sqrt c * Real.sqrt d := Real.sqrt_mul hc' _
  have key : (Real.sqrt (a : ℝ) + Real.sqrt (b : ℝ) ≤ Real.sqrt (c : ℝ) + Real.sqrt (d : ℝ)) ↔
      ((a : ℝ) + b) + 2 * Real.sqrt ((a : ℝ) * b) ≤ ((c : ℝ) + d) + 2 * Real.sqrt ((c : ℝ) * d) := by
    constructor
    · intro h
      have h2 := pow_le_pow_left₀ (by positivity) h 2
      nlinarith [Real.sqrt_nonneg (a : ℝ), Real.sqrt_nonneg (b : ℝ),
        Real.sqrt_nonneg (c : ℝ), Real.sqrt_nonneg (d : ℝ)]
    · intro h
      refine le_of_sq_le_sq _ _ (by positivity) (by positivity) ?_
      nlinarith [Real.sqrt_nonneg (a : ℝ), Real.sqrt_nonneg (b : ℝ),
        Real.sqrt_nonneg (c : ℝ), Real.sqrt_nonneg (d : ℝ)]
  rw [key]
  unfold sqrtSumLE
  by_cases hmn : a + b ≤ c + d
  · rw [if_pos hmn, Bool.or_eq_true, decide_eq_true_iff, decide_eq_true_iff]
    have hmn' : (0 : ℝ) ≤ ((c + d - (a + b) : Int) : ℝ) := by
      push_cast
      have : (a : ℝ) + b ≤ (c : ℝ) + d := by exact_mod_cast hmn
      linarith
    have hiff := two_sqrt_le_add ((a : ℝ) * b) ((c : ℝ) * d) ((c + d - (a + b) : Int) : ℝ)
      (by positivity) (by positivity) hmn'
    constructor
    · intro h
      have h2 : 2 * Real.sqrt ((a : ℝ) * b) ≤
          ((c + d - (a + b) : Int) : ℝ) + 2 * Real.sqrt ((c : ℝ) * d) := by
        refine hiff.2 ?_
        rcases h with h | h
        · refine Or.inl ?_
          push_cast
          exact_mod_cast h
        · refine Or.inr ?_
          push_cast
          exact_mod_cast h
      push_cast at h2
      linarith
    · intro h
      have h2 : 2 * Real.sqrt ((a : ℝ) * b) ≤
          ((c + d - (a + b) : Int) : ℝ) + 2 * Real.sqrt ((c : ℝ) * d) := by
        push_cast
        linarith
      rcases hiff.1 h2 with h3 | h3
      · refine Or.inl ?_
        exact_mod_cast h3
      · refine Or.inr ?_
        exact_mod_cast h3
  · rw [if_neg hmn, Bool.and_eq_true, decide_eq_true_iff, decide_eq_true_iff]
    have hmn' : (0 : ℝ) ≤ ((a + b - (c + d) : Int) : ℝ) := by
      push_cast
      have : (c : ℝ) + d ≤ (a : ℝ) + b := by
        have := le_of_lt (lt_of_not_le hmn)
        exact_mod_cast this
      linarith
    have hiff := add_two_sqrt_le ((a : ℝ) * b) ((c : ℝ) * d) ((a + b - (c + d) : Int) : ℝ)
      (by positivity) (by positivity) hmn'
    constructor
    · rintro ⟨h1, h2⟩
      have h3 : ((a + b - (c + d) : Int) : ℝ) + 2 * Real.sqrt ((a : ℝ) * b) ≤
          2 * Real.sqrt ((c : ℝ) * d) := by
        refine hiff.2 ⟨?_, ?_⟩
        · exact_mod_cast h1
        · exact_mod_cast h2
      push_cast at h3
      linarith
    · intro h
      have h3 : ((a + b - (c + d) : Int) : ℝ) + 2 * Real.sqrt ((a : ℝ) * b) ≤
          2 * Real.sqrt ((c : ℝ) * d) := by
        push_cast
        linarith
      obtain ⟨h1, h2⟩ := hiff.1 h3
      exact ⟨by exact_mod_cast h1, by exact_mod_cast h2⟩

/-- The strict comparison `sqrtSumLT` likewise decides `√a + √b < √c + √d`. -/
theorem sqrtSumLT_correct (a b c d : Int) (ha : 0 ≤ a) (hb : 0 ≤ b) (hc : 0 ≤ c)
    (hd : 0 ≤ d) :
    sqrtSumLT a b c d = true ↔
      Real.sqrt (a : ℝ) + Real.sqrt (b : ℝ) < Real.sqrt (c : ℝ) + Real.sqrt (d : ℝ) := by
  unfold sqrtSumLT
  rw [Bool.not_eq_true', ← Bool.not_eq_true, not_iff_comm,
    sqrtSumLE_correct c d a b hc hd ha hb]
  push_neg
  rfl

/-! ### Claim C8 -/

/-- C8: for every grid, if start and goal are the same position, `astar`
returns exactly the single-element path `[start]`: the very first iteration
pops `start`, matches the goal test, and reconstructs the one-cell path. -/
theorem c8_start_eq_goal (g : Grid) (p : Pt) : astar g p p = [p] := by
  simp [astar, astarWithDirs, astarInit, astarLoop, minByCost, chainFrom]

/-! ### Claim C3 -/

/-- C3 counterexample: on the fully open 2×2 grid with start (0,0) and goal
(1,1), the program returns the diagonal two-cell path, while expansion
restricted to the 4-element cardinal set would return a three-cell path; so
the neighbours considered for relaxation are not those of the cardinal set. -/
theorem c3_counterexample :
    some (astar grid22 (0, 0) (1, 1)) ≠ astarWithDirs grid22 CARDINALS (0, 0) (1, 1) := by
  decide

/-! ### Claim C4 -/

/-- C4 counterexample: running the search with the spec's skip rule
(skip when `stored ≤ tentative`) changes the output on a concrete grid,
because the program actually updates parents when the stored cost *equals*
the tentative cost; so "skip on less-than-or-equal" misdescribes the code. -/
theorem c4_counterexample :
    some (astar gridColumns (2, 0) (0, 0)) ≠ astarSkipLE gridColumns (2, 0) (0, 0) := by
  decide

/-- C4 amended: during relaxation of a traversable, not-yet-closed neighbor,
the neighbor is skipped (state unchanged) exactly when its stored cost is
*strictly* less than the tentative cost; when the stored cost is greater
than or equal, its parent becomes the current cell, its cost becomes the
tentative cost, and it is ensured in the open set. -/
theorem c4_strict_skip (g : Grid) (goalP visiting : Pt) (st : SearchState) (n : Node)
    (ht : g.traversable n = true) (hv : n.position ∉ st.visited) :
    ((st.cost n.position).lt
        (Cost.val (dist2 visiting n.position) (dist2 goalP n.position)) = true →
      relaxOne g goalP visiting st n = st) ∧
    ((st.cost n.position).lt
        (Cost.val (dist2 visiting n.position) (dist2 goalP n.position)) = false →
      (relaxOne g goalP visiting st n).parent n.position = some visiting ∧
      (relaxOne g goalP visiting st n).cost n.position =
        Cost.val (dist2 visiting n.position) (dist2 goalP n.position) ∧
      n.position ∈ (relaxOne g goalP visiting st n).toVisit) := by
  constructor
  · intro h
    simp [relaxOne, ht, hv, h]
  · intro h
    refine ⟨?_, ?_, ?_⟩ <;>
      simp [relaxOne, ht, hv, h, mem_pushUnique_self]

/-- Witness for `c4_strict_skip` at a concrete relaxation situation: on the
open 3×1 grid with goal (2,0), relaxing the fresh neighbor (1,0) from the
start cell (0,0) records parent, cost and open-set membership. -/
theorem c4_strict_skip_witness :
    (relaxOne gridRow1 (2, 0) (0, 0) (astarInit (0, 0) (2, 0)) ⟨'.', 1, 0⟩).parent (1, 0) =
        some (0, 0) ∧
      (relaxOne gridRow1 (2, 0) (0, 0) (astarInit (0, 0) (2, 0)) ⟨'.', 1, 0⟩).cost (1, 0) =
        Cost.val 1 1 ∧
      ((1 : Int), (0 : Int)) ∈
        (relaxOne gridRow1 (2, 0) (0, 0) (astarInit (0, 0) (2, 0)) ⟨'.', 1, 0⟩).toVisit :=
  (c4_strict_skip gridRow1 (2, 0) (0, 0) (astarInit (0, 0) (2, 0)) ⟨'.', 1, 0⟩
    (by decide) (by decide)).2 (by decide)

/-! ### Claim C5 -/

/-- C5 counterexample: on the fully open 3×2 grid, the cell at (2,0) (right
edge) yields a node at position (0,1) — the flat index of the unchecked
offset (1,0) wraps to the next row — which is not `(2,0) + d` for any offset
`d` of the adjacent set; so `neighbours` does not yield exactly the in-bounds
offset positions. -/
theorem c5_counterexample :
    ((gridOpen32.neighbours ⟨'.', 2, 0⟩ ADJACENTS).map Node.position ≠
        neighboursClaim gridOpen32 ⟨'.', 2, 0⟩ ADJACENTS) ∧
      ((0 : Int), (1 : Int)) ∈ (gridOpen32.neighbours ⟨'.', 2, 0⟩ ADJACENTS).map Node.position ∧
      ((0 : Int) - 2, (1 : Int) - 0) ∉ ADJACENTS := by
  decide

/-- What one probe of the amended claim C5 yields: for an offset whose
target coordinates are nonnegative and whose unchecked flat index
`(x+dx) + width*(y+dy)` is within the node list, the position
`(idx % width, idx / width)` of the cell at that flat index (which wraps to
a later row whenever `x+dx ≥ width`); nothing otherwise. -/
def wrapProbe (g : Grid) (p d : Pt) : Option Pt :=
  if p.1 + d.1 < 0 ∨ p.2 + d.2 < 0 then none
  else
    let idx : Int := (p.1 + d.1) + (g.width : Int) * (p.2 + d.2)
    if idx < (g.nodes.length : Int) then
      some ((((idx.toNat % g.width : Nat) : Int), ((idx.toNat / g.width : Nat) : Int)))
    else none

/-- On a well-formed grid, `neighbours` yields exactly the cells described
by `wrapProbe`, offset by offset in the direction set's order. -/
theorem neighbours_order (g : Grid) (n : Node) (dirs : List Pt) (hw : WellFormed g) :
    (g.neighbours n dirs).map Node.position = dirs.filterMap (wrapProbe g n.position) := by
  unfold Grid.neighbours Grid.neighboursP
  rw [List.map_filterMap]
  refine List.filterMap_congr ?_
  intro d _
  by_cases hneg : n.position.1 + d.1 < 0 ∨ n.position.2 + d.2 < 0
  · rw [if_pos hneg]
    simp only [wrapProbe]
    rw [if_pos hneg]
    rfl
  · rw [if_neg hneg]
    simp only [wrapProbe]
    rw [if_neg hneg]
    push_neg at hneg
    obtain ⟨hx, hy⟩ := hneg
    simp only [Grid.get?]
    have hidx0 : 0 ≤ (n.position.1 + d.1) + (g.width : Int) * (n.position.2 + d.2) :=
      add_nonneg hx (mul_nonneg (by positivity) hy)
    rw [if_pos hidx0]
    by_cases hlt : (n.position.1 + d.1) + (g.width : Int) * (n.position.2 + d.2) <
        (g.nodes.length : Int)
    · rw [if_pos hlt]
      have htn : ((n.position.1 + d.1) + (g.width : Int) * (n.position.2 + d.2)).toNat <
          g.nodes.length := by omega
      rw [List.getElem?_eq_getElem htn]
      have h2 := hw.2 _ htn
      rw [List.getElem?_eq_getElem htn] at h2
      simpa using h2
    · rw [if_neg hlt]
      have hge : g.nodes.length ≤
          ((n.position.1 + d.1) + (g.width : Int) * (n.position.2 + d.2)).toNat := by omega
      rw [List.getElem?_eq_none_iff.2 hge]
      rfl

/-- C5 amended: `neighbours` yields, in the direction set's order, exactly
the cells found by the unchecked flat-index lookup (`wrapProbe`): one cell
per offset with nonnegative target coordinates and in-range flat index —
hence at most 8 cells for adjacent and 4 for cardinals/diagonals; every
yielded cell belongs to the grid's node list and (on a well-formed grid)
has nonnegative coordinates; and the cell of every in-bounds offset target
is yielded at its correct position.  Because the lookup never checks
`x < width`, a right-edge cell also yields wrapped cells of later rows
(see `c5_counterexample`). -/
theorem c5_amended (g : Grid) (n : Node) (dirs : List Pt) (hw : WellFormed g) :
    (g.neighbours n dirs).map Node.position = dirs.filterMap (wrapProbe g n.position) ∧
    (g.neighbours n dirs).length ≤ dirs.length ∧
    (∀ m ∈ g.neighbours n dirs, m ∈ g.nodes ∧ 0 ≤ m.x ∧ 0 ≤ m.y) ∧
    (∀ d ∈ dirs, inBounds g (n.x + d.1, n.y + d.2) →
      ∃ m ∈ g.neighbours n dirs, m.position = (n.x + d.1, n.y + d.2)) := by
  refine ⟨neighbours_order g n dirs hw, List.length_filterMap_le _ _, ?_, ?_⟩
  · intro m hm
    simp only [Grid.neighbours, Grid.neighboursP, List.mem_filterMap] at hm
    obtain ⟨d, _, hd⟩ := hm
    split at hd
    · exact absurd hd (by simp)
    · have hmem := get?_mem hd
      refine ⟨hmem, ?_⟩
      obtain ⟨i, hi, rfl⟩ := List.getElem_of_mem hmem
      have h2 := hw.2 i hi
      rw [List.getElem?_eq_getElem hi] at h2
      have h3 : (g.nodes[i]).position =
          (((i % g.width : Nat) : Int), ((i / g.width : Nat) : Int)) := by
        simpa using h2
      have hx : (g.nodes[i]).x = ((i % g.width : Nat) : Int) :=
        congrArg Prod.fst h3
      have hy : (g.nodes[i]).y = ((i / g.width : Nat) : Int) :=
        congrArg Prod.snd h3
      rw [hx, hy]
      exact ⟨Int.ofNat_nonneg _, Int.ofNat_nonneg _⟩
  · intro d hd hb
    have h0x : 0 ≤ n.x + d.1 := hb.1
    have h0y : 0 ≤ n.y + d.2 := hb.2.2.1
    have hsome := get?_inBounds hw hb
    obtain ⟨m, hm, hpos⟩ : ∃ m, g.get? (n.x + d.1, n.y + d.2) = some m ∧
        m.position = (n.x + d.1, n.y + d.2) := by
      cases hg : g.get? (n.x + d.1, n.y + d.2) with
      | none => rw [hg] at hsome; exact absurd hsome (by simp)
      | some m => rw [hg] at hsome; exact ⟨m, rfl, by simpa using hsome⟩
    refine ⟨m, ?_, hpos⟩
    simp only [Grid.neighbours, Grid.neighboursP, List.mem_filterMap, Node.position]
    refine ⟨d, hd, ?_⟩
    rw [if_neg (by push_neg; omega)]
    exact hm

/-- Witness for `c5_amended` on the open 3×2 grid at its top-left cell. -/
theorem c5_amended_witness :
    (gridOpen32.neighbours ⟨'.', 0, 0⟩ ADJACENTS).map Node.position =
      ADJACENTS.filterMap (wrapProbe gridOpen32 (Node.position ⟨'.', 0, 0⟩)) ∧
    (gridOpen32.neighbours ⟨'.', 0, 0⟩ ADJACENTS).length ≤ ADJACENTS.length ∧
    (∀ m ∈ gridOpen32.neighbours ⟨'.', 0, 0⟩ ADJACENTS,
      m ∈ gridOpen32.nodes ∧ 0 ≤ m.x ∧ 0 ≤ m.y) ∧
    (∀ d ∈ ADJACENTS, inBounds gridOpen32 (Node.x ⟨'.', 0, 0⟩ + d.1, Node.y ⟨'.', 0, 0⟩ + d.2) →
      ∃ m ∈ gridOpen32.neighbours ⟨'.', 0, 0⟩ ADJACENTS,
        m.position = (Node.x ⟨'.', 0, 0⟩ + d.1, Node.y ⟨'.', 0, 0⟩ + d.2)) :=
  c5_amended gridOpen32 ⟨'.', 0, 0⟩ ADJACENTS (by decide)

/-! ### Claim C6 -/

/-- C6 counterexample: on the 3×2 grid, looking up (3,0) — which the claim
says must fail, having `x ≥ width` — instead succeeds and returns the cell
at (0,1): the flat index `3 + 3*0 = 3` is in range and wraps to row 1. -/
theorem c6_counterexample : ¬ getClaim gridOpen32 (3, 0) := by
  decide

/-- C6 amended: a direct lookup of `(x, y)` fails exactly when the flat
index `x + width*y` falls outside `[-len(nodes), len(nodes))` — not when the
point leaves `[0,width) × [0,height)` — and for genuinely in-bounds points
on a well-formed grid it returns the cell at exactly that position. -/
theorem c6_amended (g : Grid) (p : Pt) :
    (g.get? p = none ↔
      (p.1 + (g.width : Int) * p.2 < -(g.nodes.length : Int) ∨
        (g.nodes.length : Int) ≤ p.1 + (g.width : Int) * p.2)) ∧
    (WellFormed g → inBounds g p → (g.get? p).map Node.position = some p) := by
  constructor
  · simp only [Grid.get?]
    split
    · rename_i h0
      rw [List.getElem?_eq_none_iff]
      omega
    · split
      · rename_i h0 hn
        have hlt : (p.1 + (g.width : Int) * p.2 + (g.nodes.length : Int)).toNat <
            g.nodes.length := by omega
        rw [List.getElem?_eq_getElem hlt]
        simp only [reduceCtorEq, false_iff]
        omega
      · simp only [true_iff]
        omega
  · intro hw hb
    exact get?_inBounds hw hb

/-- Witness for `c6_amended`: the in-bounds lookup branch at (1,1) on the
open 3×2 grid. -/
theorem c6_amended_witness :
    (gridOpen32.get? (1, 1)).map Node.position = some (1, 1) :=
  (c6_amended gridOpen32 (1, 1)).2 (by decide) (by decide)

/-! ### Claim C7 -/

/-- C7 counterexample: the ragged block `"ab\nc"` (lines of lengths 2 and 1)
is malformed in the spec's sense, yet `from_text` raises nothing: it returns
a perfectly ordinary `Grid` — one that even violates the spec's own area
invariant (3 nodes ≠ width 1 × height 2).  The empty block likewise
constructs the 0×0 grid instead of failing. -/
theorem c7_counterexample :
    Malformed raggedText ∧
      fromText raggedText =
        { nodes := [⟨'a', 0, 0⟩, ⟨'b', 1, 0⟩, ⟨'c', 0, 1⟩], width := 1, height := 2 } ∧
      (fromText raggedText).nodes.length ≠
        (fromText raggedText).width * (fromText raggedText).height ∧
      Malformed emptyText ∧
      fromText emptyText = { nodes := [], width := 0, height := 0 } := by
  refine ⟨by decide, by decide, by decide, by decide, by decide⟩

/-- C7 amended: `from_text` never fails.  On every input it returns a grid
whose height is the number of stripped lines, whose width is the length of
the *last* stripped line (0 when there are none), and whose node list has
one node per character of every stripped line — so for ragged input the
grid simply comes out inconsistent instead of an error being raised. -/
theorem c7_from_text_total (text : String) :
    (fromText text).height = (stripLines text).length ∧
    (fromText text).width = (((stripLines text).getLast?).map List.length).getD 0 ∧
    (fromText text).nodes.length = ((stripLines text).map List.length).sum := by
  refine ⟨rfl, rfl, ?_⟩
  simp only [fromText, List.length_flatten, List.map_map]
  have h1 : (List.length ∘ fun yl : ℕ × List Char =>
      yl.2.enum.map (fun xc => Node.mk xc.2 (Int.ofNat xc.1) (Int.ofNat yl.1))) =
      fun yl : ℕ × List Char => yl.2.length := by
    funext yl
    simp [List.enum_length]
  rw [h1]
  have h2 : (stripLines text).enum.map (fun yl : ℕ × List Char => yl.2.length) =
      ((stripLines text).enum.map Prod.snd).map List.length := by
    rw [List.map_map]
    rfl
  rw [h2, List.enum_map_snd]

/-! ### Claim C2 counterexample -/

/-- C2 counterexample: on the grid `".#." / ".#." / "..."` the pair
(2,0) → (0,0) is genuinely reachable by a traversable 8-connected route, yet
the returned path `[(2,0), (0,1), (0,0)]` jumps from (2,0) to (0,1) — an
offset of (-2,1), which is not 8-adjacency.  The unchecked flat-index lookup
wrapped the right-edge neighbour probe around to column 0 of the next row. -/
theorem c2_counterexample :
    IsPath gridTwoCol [(2, 0), (2, 1), (1, 2), (0, 1), (0, 0)] (2, 0) (0, 0) ∧
      astar gridTwoCol (2, 0) (0, 0) = [(2, 0), (0, 1), (0, 0)] ∧
      ¬ step8 (2, 0) (0, 1) := by
  refine ⟨by decide, by decide, by decide⟩

/-! ### Claim C9 counterexample -/

/-- A concrete set of cells closed under traversable in-bounds 8-adjacency. -/
def closedUnder8 (g : Grid) (S : List Pt) : Prop :=
  ∀ p ∈ S, ∀ d ∈ ADJACENTS,
    inBounds g (p.1 + d.1, p.2 + d.2) → traversableAt g (p.1 + d.1, p.2 + d.2) = true →
      (p.1 + d.1, p.2 + d.2) ∈ S

instance (g : Grid) (S : List Pt) : Decidable (closedUnder8 g S) :=
  inferInstanceAs (Decidable (∀ p ∈ S, ∀ d ∈ ADJACENTS,
    inBounds g (p.1 + d.1, p.2 + d.2) → traversableAt g (p.1 + d.1, p.2 + d.2) = true →
      (p.1 + d.1, p.2 + d.2) ∈ S))

/-- Any traversable 8-connected route starting inside an 8-closed set ends
inside it. -/
theorem isPath_stays (g : Grid) (S : List Pt) (hS : closedUnder8 g S) :
    ∀ (l : List Pt) (s t : Pt), IsPath g l s t → s ∈ S → t ∈ S := by
  intro l
  induction l with
  | nil => intro s t h _; exact absurd rfl h.1
  | cons a rest ih =>
    intro s t h hs
    have ha : a = s := by
      have := h.2.1
      simpa using this
    subst ha
    cases rest with
    | nil =>
      have : t = a := by
        have := h.2.2.1
        simpa using this.symm
      exact this ▸ hs
    | cons b rest2 =>
      have hstep : step8 a b := by
        have hc := h.2.2.2.2
        simp only [chain8] at hc
        exact of_decide_eq_true (Bool.and_elim_left hc)
      have hbmem : inBounds g b ∧ traversableAt g b = true :=
        h.2.2.2.1 b (by simp)
      have hb : b ∈ S := by
        have := hS a hs (b.1 - a.1, b.2 - a.2) hstep
        have hb1 : (a.1 + (b.1 - a.1), a.2 + (b.2 - a.2)) = b := by
          obtain ⟨b1, b2⟩ := b
          simp only [Prod.mk.injEq]
          omega
        rw [hb1] at this
        exact this hbmem.1 hbmem.2
      refine ih b t ?_ hb
      refine ⟨by simp, by simp, ?_, ?_, ?_⟩
      · have := h.2.2.1
        rwa [List.getLast?_cons_cons] at this
      · intro p hp
        exact h.2.2.2.1 p (by simp [hp])
      · have hc := h.2.2.2.2
        simp only [chain8] at hc
        exact Bool.and_elim_right hc

/-- C9 counterexample: on the grid `".#." / ".#."` there is no traversable
8-connected route from (2,0) to (0,0) — the wall column separates them, as
certified by the 8-closed set {(2,0),(2,1)} — yet `astar` returns the
non-empty sequence `[(2,0), (0,1), (0,0)]`, reaching the goal through the
wrapped right-edge lookup; so "no route implies empty result" is false. -/
theorem c9_counterexample :
    (¬ ∃ l, IsPath gridSplit l (2, 0) (0, 0)) ∧
      astar gridSplit (2, 0) (0, 0) = [(2, 0), (0, 1), (0, 0)] := by
  constructor
  · rintro ⟨l, hl⟩
    have h0 : ((0 : Int), (0 : Int)) ∈ ([(2, 0), (2, 1)] : List Pt) :=
      isPath_stays gridSplit [(2, 0), (2, 1)] (by decide) l (2, 0) (0, 0) hl (by decide)
    exact absurd h0 (by decide)
  · decide

/-! ### Claim C1 -/

/-- C1: on the pocket grid, `astar` returns the six-cell path of total cost
`3 + 2√2 ≈ 5.83`, although the five-cell route
`(2,3) → (1,2) → (0,1) → (1,0) → (2,0)` is a traversable 8-connected path of
total cost `1 + 3√2 ≈ 5.24`; the returned path is not of minimal total cost,
contradicting the function's own docstring ("Returns the shortest path"). -/
theorem c1_not_shortest :
    IsPath gridPocket [(2, 3), (1, 2), (0, 1), (1, 0), (2, 0)] (2, 3) (2, 0) ∧
      astar gridPocket (2, 3) (2, 0) = [(2, 3), (2, 2), (1, 2), (0, 1), (1, 0), (2, 0)] ∧
      pathCostR [(2, 3), (1, 2), (0, 1), (1, 0), (2, 0)] <
        pathCostR (astar gridPocket (2, 3) (2, 0)) := by
  have he : astar gridPocket (2, 3) (2, 0) =
      [(2, 3), (2, 2), (1, 2), (0, 1), (1, 0), (2, 0)] := by decide
  refine ⟨by decide, he, ?_⟩
  rw [he]
  norm_num [pathCostR, dist2, Real.sqrt_one]
  nlinarith [Real.sq_sqrt (by norm_num : (0:ℝ) ≤ 2), Real.sqrt_nonneg 2]

/-! ### Loop-invariant machinery for the A* search -/

theorem chainFrom_mono (parent : Pt → Option Pt) :
    ∀ (f f' : Nat) (p : Pt) (l : List Pt), chainFrom parent f p = some l → f ≤ f' →
      chainFrom parent f' p = some l := by
  intro f
  induction f with
  | zero => intro f' p l h _; exact absurd h (by simp [chainFrom])
  | succ n ih =>
    intro f' p l h hle
    obtain ⟨m, rfl⟩ : ∃ m, f' = m + 1 := ⟨f' - 1, by omega⟩
    cases hp : parent p with
    | none =>
      simp only [chainFrom, hp] at h ⊢
      exact h
    | some q =>
      simp only [chainFrom, hp] at h ⊢
      cases hq : chainFrom parent n q with
      | none => rw [hq] at h; exact absurd h (by simp)
      | some l2 =>
        rw [hq] at h
        rw [ih m q l2 hq (by omega)]
        exact h

theorem chainFrom_congr (parent parent' : Pt → Option Pt) :
    ∀ (f : Nat) (p : Pt) (l : List Pt), chainFrom parent f p = some l →
      (∀ q ∈ l, parent' q = parent q) → chainFrom parent' f p = some l := by
  intro f
  induction f with
  | zero => intro p l h _; exact absurd h (by simp [chainFrom])
  | succ n ih =>
    intro p l h hsame
    cases hp : parent p with
    | none =>
      simp only [chainFrom, hp] at h
      have hpl : p ∈ l := by
        have : l = [p] := by simpa using h.symm
        simp [this]
      simp only [chainFrom, hsame p hpl, hp]
      exact h
    | some q =>
      simp only [chainFrom, hp] at h
      cases hq : chainFrom parent n q with
      | none => rw [hq] at h; exact absurd h (by simp)
      | some l2 =>
        rw [hq] at h
        have hl : l = p :: l2 := by simpa using h.symm
        have hpl : p ∈ l := by simp [hl]
        simp only [chainFrom, hsame p hpl, hp,
          ih q l2 hq (fun r hr => hsame r (by simp [hl, hr]))]
        exact h

theorem minByCost_mem (c : Pt → Cost) : ∀ (xs : List Pt) (x : Pt),
    minByCost c x xs ∈ x :: xs := by
  intro xs
  induction xs with
  | nil => intro x; simp [minByCost]
  | cons y ys ih =>
    intro x
    have h1 : minByCost c x (y :: ys) =
        minByCost c (if (c y).lt (c x) then y else x) ys := rfl
    rw [h1]
    have h2 := ih (if (c y).lt (c x) then y else x)
    rcases List.mem_cons.1 h2 with h | h
    · rw [h]
      split <;> simp
    · simp [h]

theorem neighboursP_subset_nodes {g : Grid} {p : Pt} {dirs : List Pt} {n : Node}
    (h : n ∈ g.neighboursP p dirs) : n ∈ g.nodes := by
  simp only [Grid.neighboursP, List.mem_filterMap] at h
  obtain ⟨d, _, hd⟩ := h
  split at hd
  · exact absurd hd (by simp)
  · exact get?_mem hd

/-- On a well-formed grid, looking a node of the grid up at its own position
returns exactly that node. -/
theorem node_lookup {g : Grid} (hw : WellFormed g) {n : Node} (hn : n ∈ g.nodes) :
    g.get? n.position = some n ∧ inBounds g n.position := by
  obtain ⟨i, hi, rfl⟩ := List.getElem_of_mem hn
  have h2 := hw.2 i hi
  rw [List.getElem?_eq_getElem hi] at h2
  have h3 : (g.nodes[i]).position =
      (((i % g.width : Nat) : Int), ((i / g.width : Nat) : Int)) := by simpa using h2
  have hw0 : 0 < g.width := by
    rcases Nat.eq_zero_or_pos g.width with h0 | h0
    · rw [hw.1, h0] at hi; simp at hi
    · exact h0
  have hlen : i < g.width * g.height := hw.1 ▸ hi
  have hdiv : i / g.width < g.height := Nat.div_lt_of_lt_mul (by omega)
  constructor
  · rw [h3]
    unfold Grid.get?
    have hidx : ((i % g.width : Nat) : Int) + (g.width : Int) * ((i / g.width : Nat) : Int) =
        ((i : Nat) : Int) := by
      push_cast
      exact_mod_cast congrArg (fun t : ℕ => (t : Int)) (Nat.mod_add_div i g.width)
    rw [hidx, if_pos (by positivity)]
    rw [Int.toNat_ofNat]
    exact List.getElem?_eq_getElem hi
  · rw [h3]
    refine ⟨?_, ?_, ?_, ?_⟩
    · show (0 : Int) ≤ ((i % g.width : Nat) : Int)
      positivity
    · show ((i % g.width : Nat) : Int) < (g.width : Int)
      exact_mod_cast Nat.mod_lt _ hw0
    · show (0 : Int) ≤ ((i / g.width : Nat) : Int)
      positivity
    · show ((i / g.width : Nat) : Int) < (g.height : Int)
      exact_mod_cast hdiv

/-- The target of an algorithm edge is traversable in the position sense. -/
theorem edge_target_trav {g : Grid} (hw : WellFormed g) {q p : Pt}
    (h : algoEdge g q p) : traversableAt g p = true := by
  obtain ⟨n, hn, hpos, htr⟩ := h
  have hl := (node_lookup hw (neighboursP_subset_nodes hn)).1
  rw [hpos] at hl
  unfold traversableAt
  rw [hl]
  exact htr

/-- A genuine traversable in-bounds 8-step is among the algorithm's edges. -/
theorem step8_algoEdge {g : Grid} (hw : WellFormed g) {u v : Pt}
    (hb : inBounds g v) (ht : traversableAt g v = true) (hs : step8 u v) :
    algoEdge g u v := by
  have h0x : 0 ≤ v.1 := hb.1
  have h0y : 0 ≤ v.2 := hb.2.2.1
  have hsome := get?_inBounds hw hb
  obtain ⟨m, hm, hpos⟩ : ∃ m, g.get? v = some m ∧ m.position = v := by
    cases hg : g.get? v with
    | none => rw [hg] at hsome; exact absurd hsome (by simp)
    | some m => rw [hg] at hsome; exact ⟨m, rfl, by simpa using hsome⟩
  refine ⟨m, ?_, hpos, ?_⟩
  · simp only [Grid.neighboursP, List.mem_filterMap]
    refine ⟨(v.1 - u.1, v.2 - u.2), hs, ?_⟩
    have hv : (u.1 + (v.1 - u.1), u.2 + (v.2 - u.2)) = v := by
      obtain ⟨v1, v2⟩ := v; simp only [Prod.mk.injEq]; omega
    rw [hv, if_neg (by push_neg; omega)]
    exact hm
  · unfold traversableAt at ht
    rw [hm] at ht
    exact ht

/-- The persistent part of the loop invariant: everything that survives each
relaxation step (no frontier clause, no goal clause). -/
structure Core (g : Grid) (s goalP : Pt) (st : SearchState) : Prop where
  nodupV : st.visited.Nodup
  nodupT : st.toVisit.Nodup
  disj : ∀ p ∈ st.toVisit, p ∉ st.visited
  sVis : s ∈ st.visited
  parentVis : ∀ p q, st.parent p = some q → q ∈ st.visited
  parentEdge : ∀ p q, st.parent p = some q → algoEdge g q p
  sNone : st.parent s = none
  openParent : ∀ p ∈ st.toVisit, p ≠ s → st.parent p ≠ none
  visParent : ∀ p ∈ st.visited, p ≠ s → st.parent p ≠ none
  finCost : ∀ p, st.cost p ≠ Cost.inf → p ∈ st.visited ∨ p ∈ st.toVisit
  reachV : ∀ p ∈ st.visited, AlgoReach g s p
  reachT : ∀ p ∈ st.toVisit, AlgoReach g s p
  chainOK : ∀ p ∈ st.visited, ∃ l, chainFrom st.parent st.visited.length p = some l ∧
      l.getLast? = some s ∧ ∀ q ∈ l, q ∈ st.visited
  visMem : ∀ p ∈ st.visited, p = s ∨ ∃ n ∈ g.nodes, n.position = p
  openMem : ∀ p ∈ st.toVisit, p = s ∨ ∃ n ∈ g.nodes, n.position = p

/-- The full invariant at the head of each `while to_visit:` iteration. -/
structure Inv (g : Grid) (s goalP : Pt) (st : SearchState) : Prop where
  nodupV : st.visited.Nodup
  nodupT : st.toVisit.Nodup
  disj : ∀ p ∈ st.toVisit, p ∉ st.visited
  hs : s ∈ st.visited ∨ (st.visited = [] ∧ st.toVisit = [s] ∧ (∀ q, st.parent q = none) ∧
      (∀ q, st.cost q ≠ Cost.inf → q = s))
  tNot : goalP ∉ st.visited
  parentVis : ∀ p q, st.parent p = some q → q ∈ st.visited
  parentEdge : ∀ p q, st.parent p = some q → algoEdge g q p
  sNone : st.parent s = none
  openParent : ∀ p ∈ st.toVisit, p ≠ s → st.parent p ≠ none
  visParent : ∀ p ∈ st.visited, p ≠ s → st.parent p ≠ none
  finCost : ∀ p, st.cost p ≠ Cost.inf → p ∈ st.visited ∨ p ∈ st.toVisit
  reachV : ∀ p ∈ st.visited, AlgoReach g s p
  reachT : ∀ p ∈ st.toVisit, AlgoReach g s p
  chainOK : ∀ p ∈ st.visited, ∃ l, chainFrom st.parent st.visited.length p = some l ∧
      l.getLast? = some s ∧ ∀ q ∈ l, q ∈ st.visited
  visMem : ∀ p ∈ st.visited, p = s ∨ ∃ n ∈ g.nodes, n.position = p
  openMem : ∀ p ∈ st.toVisit, p = s ∨ ∃ n ∈ g.nodes, n.position = p
  frontier : ∀ u ∈ st.visited, ∀ n ∈ g.neighboursP u ADJACENTS,
      g.traversable n = true → n.position ∈ st.visited ∨ n.position ∈ st.toVisit

/-- Structural facts about any successful `chainFrom` computation. -/
theorem chainFrom_spec (parent : Pt → Option Pt) :
    ∀ (f : Nat) (p : Pt) (l : List Pt), chainFrom parent f p = some l →
      l.head? = some p ∧ l.Chain' (fun a b => parent a = some b) ∧
      ∃ r, l.getLast? = some r ∧ parent r = none := by
  intro f
  induction f with
  | zero => intro p l h; exact absurd h (by simp [chainFrom])
  | succ n ih =>
    intro p l h
    cases hp : parent p with
    | none =>
      simp only [chainFrom, hp] at h
      have hl : l = [p] := by simpa using h.symm
      subst hl
      exact ⟨rfl, by simp, p, rfl, hp⟩
    | some q =>
      simp only [chainFrom, hp] at h
      cases hq : chainFrom parent n q with
      | none => rw [hq] at h; exact absurd h (by simp)
      | some l2 =>
        rw [hq] at h
        have hl : l = p :: l2 := by simpa using h.symm
        subst hl
        obtain ⟨hhead, hchain, r, hlast, hrnone⟩ := ih q l2 hq
        refine ⟨rfl, ?_, r, ?_, hrnone⟩
        · cases l2 with
          | nil => simp at hhead
          | cons b t =>
            have hb : b = q := by simpa using hhead
            exact List.chain'_cons.2 ⟨hb ▸ hp, hchain⟩
        · cases l2 with
          | nil => simp at hhead
          | cons b t => rw [List.getLast?_cons_cons]; exact hlast

theorem pushUnique_nodup (l : List Pt) (p : Pt) (h : l.Nodup) :
    (pushUnique l p).Nodup := by
  unfold pushUnique
  split
  · exact h
  · rename_i hp
    simp [List.nodup_append, h, hp]

/-- One relaxation step preserves the persistent invariant, never touches
the visited list, only grows the open set, and leaves the processed
neighbour covered (closed or open) whenever it is traversable. -/
theorem relaxOne_preserves (g : Grid) (s goalP visiting : Pt) (st : SearchState) (n : Node)
    (hc : Core g s goalP st) (hvis : visiting ∈ st.visited)
    (hn : n ∈ g.neighboursP visiting ADJACENTS) :
    Core g s goalP (relaxOne g goalP visiting st n) ∧
    (relaxOne g goalP visiting st n).visited = st.visited ∧
    (∀ p ∈ st.toVisit, p ∈ (relaxOne g goalP visiting st n).toVisit) ∧
    (g.traversable n = true →
      n.position ∈ (relaxOne g goalP visiting st n).visited ∨
      n.position ∈ (relaxOne g goalP visiting st n).toVisit) := by
  by_cases ht : g.traversable n = true
  case neg =>
    have hr : relaxOne g goalP visiting st n = st := by
      simp [relaxOne, ht]
    rw [hr]
    exact ⟨hc, rfl, fun p hp => hp, fun h => absurd h ht⟩
  case pos =>
  by_cases hvn : n.position ∈ st.visited
  · have hr : relaxOne g goalP visiting st n = st := by
      simp [relaxOne, ht, hvn]
    rw [hr]
    exact ⟨hc, rfl, fun p hp => hp, fun _ => Or.inl hvn⟩
  · by_cases hlt : (st.cost n.position).lt
        (Cost.val (dist2 visiting n.position) (dist2 goalP n.position)) = true
    · have hr : relaxOne g goalP visiting st n = st := by
        simp [relaxOne, ht, hvn, hlt]
      rw [hr]
      refine ⟨hc, rfl, fun p hp => hp, fun _ => ?_⟩
      have hfin : st.cost n.position ≠ Cost.inf := by
        intro he
        rw [he] at hlt
        simp [Cost.lt] at hlt
      exact hc.finCost n.position hfin
    · have hr : relaxOne g goalP visiting st n =
          { st with
            parent := fun q => if q = n.position then some visiting else st.parent q
            cost := fun q => if q = n.position then
                Cost.val (dist2 visiting n.position) (dist2 goalP n.position) else st.cost q
            toVisit := pushUnique st.toVisit n.position } := by
        simp [relaxOne, ht, hvn, hlt]
      rw [hr]
      have hns : n.position ≠ s := fun he => hvn (he ▸ hc.sVis)
      have hedge : algoEdge g visiting n.position := ⟨n, hn, rfl, ht⟩
      refine ⟨?_, rfl, fun p hp => mem_pushUnique_of_mem _ _ _ hp,
        fun _ => Or.inr (mem_pushUnique_self _ _)⟩
      refine Core.mk hc.nodupV (pushUnique_nodup _ _ hc.nodupT) ?_ hc.sVis ?_ ?_ ?_ ?_ ?_
        ?_ hc.reachV ?_ ?_ hc.visMem ?_
      case _ =>
        dsimp only
        intro p hp
        rcases mem_of_mem_pushUnique _ _ _ hp with h | h
        · exact hc.disj p h
        · exact h ▸ hvn
      case _ =>
        dsimp only
        intro p q h
        by_cases hpn : p = n.position
        · rw [if_pos hpn] at h
          exact (Option.some_inj.1 h) ▸ hvis
        · rw [if_neg hpn] at h
          exact hc.parentVis p q h
      case _ =>
        dsimp only
        intro p q h
        by_cases hpn : p = n.position
        · rw [if_pos hpn] at h
          rw [hpn, ← Option.some_inj.1 h]
          exact hedge
        · rw [if_neg hpn] at h
          exact hc.parentEdge p q h
      case _ =>
        dsimp only
        rw [if_neg (fun h : s = n.position => hns h.symm)]
        exact hc.sNone
      case _ =>
        dsimp only
        intro p hp hps
        by_cases hpn : p = n.position
        · rw [if_pos hpn]; simp
        · rw [if_neg hpn]
          rcases mem_of_mem_pushUnique _ _ _ hp with h | h
          · exact hc.openParent p h hps
          · exact absurd h hpn
      case _ =>
        dsimp only
        intro p hp hps
        have hpn : p ≠ n.position := fun he => hvn (he ▸ hp)
        rw [if_neg hpn]
        exact hc.visParent p hp hps
      case _ =>
        dsimp only
        intro p hp
        by_cases hpn : p = n.position
        · exact Or.inr (hpn ▸ mem_pushUnique_self _ _)
        · rw [if_neg hpn] at hp
          rcases hc.finCost p hp with h | h
          · exact Or.inl h
          · exact Or.inr (mem_pushUnique_of_mem _ _ _ h)
      case _ =>
        dsimp only
        intro p hp
        rcases mem_of_mem_pushUnique _ _ _ hp with h | h
        · exact hc.reachT p h
        · exact h ▸ AlgoReach.step (hc.reachV visiting hvis) hedge
      case _ =>
        dsimp only
        intro p hp
        obtain ⟨l, hl, hlast, hmem⟩ := hc.chainOK p hp
        refine ⟨l, ?_, hlast, hmem⟩
        refine chainFrom_congr _ _ _ _ _ hl ?_
        intro q hq
        have hqn : q ≠ n.position := fun he => hvn (he ▸ hmem q hq)
        rw [if_neg hqn]
      case _ =>
        dsimp only
        intro p hp
        rcases mem_of_mem_pushUnique _ _ _ hp with h | h
        · exact hc.openMem p h
        · exact Or.inr ⟨n, neighboursP_subset_nodes hn, h.symm⟩

/-- Folding the relaxation over a list of neighbours of a closed cell. -/
theorem relaxFold_preserves (g : Grid) (s goalP visiting : Pt) :
    ∀ (ns : List Node) (st : SearchState),
      Core g s goalP st → visiting ∈ st.visited →
      (∀ n ∈ ns, n ∈ g.neighboursP visiting ADJACENTS) →
      Core g s goalP (ns.foldl (relaxOne g goalP visiting) st) ∧
      (ns.foldl (relaxOne g goalP visiting) st).visited = st.visited ∧
      (∀ p ∈ st.toVisit, p ∈ (ns.foldl (relaxOne g goalP visiting) st).toVisit) ∧
      (∀ n ∈ ns, g.traversable n = true →
        n.position ∈ (ns.foldl (relaxOne g goalP visiting) st).visited ∨
        n.position ∈ (ns.foldl (relaxOne g goalP visiting) st).toVisit) := by
  intro ns
  induction ns with
  | nil => intro st hc _ _; exact ⟨hc, rfl, fun p hp => hp, by simp⟩
  | cons m ms ih =>
    intro st hc hv hns
    obtain ⟨hc1, hvis1, hmono1, hcov1⟩ :=
      relaxOne_preserves g s goalP visiting st m hc hv (hns m (by simp))
    obtain ⟨hc2, hvis2, hmono2, hcov2⟩ :=
      ih (relaxOne g goalP visiting st m) hc1 (by rw [hvis1]; exact hv)
        (fun n hn => hns n (by simp [hn]))
    simp only [List.foldl_cons]
    refine ⟨hc2, by rw [hvis2, hvis1], fun p hp => hmono2 p (hmono1 p hp), ?_⟩
    intro n hn htr
    rcases List.mem_cons.1 hn with rfl | hn2
    · rcases hcov1 htr with h | h
      · exact Or.inl (by rw [hvis2]; exact h)
      · exact Or.inr (hmono2 _ h)
    · exact hcov2 n hn2 htr

/-- Popping the minimum-cost open cell into the closed list preserves the
persistent invariant and keeps all old frontier obligations covered. -/
theorem pop_preserves (g : Grid) (s goalP : Pt) (st : SearchState) (x : Pt) (xs : List Pt)
    (visiting : Pt) (st1 : SearchState)
    (hInv : Inv g s goalP st) (htv : st.toVisit = x :: xs)
    (hvst : visiting = minByCost st.cost x xs)
    (hst1 : st1 = { st with
        visited := st.visited ++ [visiting]
        toVisit := st.toVisit.erase visiting }) :
    Core g s goalP st1 ∧
    (∀ u ∈ st.visited, ∀ n ∈ g.neighboursP u ADJACENTS, g.traversable n = true →
      n.position ∈ st1.visited ∨ n.position ∈ st1.toVisit) := by
  subst hst1
  have hvmem : visiting ∈ st.toVisit := by
    rw [htv, hvst]
    exact minByCost_mem st.cost xs x
  have hvnotvis : visiting ∉ st.visited := hInv.disj visiting hvmem
  have hnodupV1 : (st.visited ++ [visiting]).Nodup :=
    List.Nodup.append hInv.nodupV (by simp) (List.disjoint_singleton.2 hvnotvis)
  have hcov : ∀ u ∈ st.visited, ∀ n ∈ g.neighboursP u ADJACENTS, g.traversable n = true →
      n.position ∈ st.visited ++ [visiting] ∨ n.position ∈ st.toVisit.erase visiting := by
    intro u hu n hn htr
    rcases hInv.frontier u hu n hn htr with h | h
    · exact Or.inl (List.mem_append_left _ h)
    · by_cases hnv : n.position = visiting
      · exact Or.inl (List.mem_append_right _ (by simp [hnv]))
      · exact Or.inr ((List.mem_erase_of_ne hnv).2 h)
  rcases hInv.hs with hsv | ⟨hve, htve, hpnone, hcost⟩
  · -- the start has already been closed
    have hvs : visiting ≠ s := fun he => hvnotvis (he ▸ hsv)
    refine ⟨?_, hcov⟩
    refine Core.mk hnodupV1 (List.Nodup.erase _ hInv.nodupT) ?_
      (List.mem_append_left _ hsv) ?_ hInv.parentEdge hInv.sNone ?_ ?_ ?_ ?_ ?_ ?_ ?_ ?_
    · -- disj
      intro p hp
      have hp2 := (hInv.nodupT.mem_erase_iff).1 hp
      intro hmem
      rcases List.mem_append.1 hmem with h | h
      · exact hInv.disj p hp2.2 h
      · exact hp2.1 (by simpa using h)
    · -- parentVis
      intro p q h
      exact List.mem_append_left _ (hInv.parentVis p q h)
    · -- openParent
      intro p hp hps
      exact hInv.openParent p (List.erase_subset _ _ hp) hps
    · -- visParent
      intro p hp hps
      rcases List.mem_append.1 hp with h | h
      · exact hInv.visParent p h hps
      · have hpv : p = visiting := by simpa using h
        exact hpv ▸ hInv.openParent visiting hvmem (hpv ▸ hps)
    · -- finCost
      intro p hp
      rcases hInv.finCost p hp with h | h
      · exact Or.inl (List.mem_append_left _ h)
      · by_cases hpv : p = visiting
        · exact Or.inl (List.mem_append_right _ (by simp [hpv]))
        · exact Or.inr ((List.mem_erase_of_ne hpv).2 h)
    · -- reachV
      intro p hp
      rcases List.mem_append.1 hp with h | h
      · exact hInv.reachV p h
      · have hpv : p = visiting := by simpa using h
        exact hpv ▸ hInv.reachT visiting hvmem
    · -- reachT
      intro p hp
      exact hInv.reachT p (List.erase_subset _ _ hp)
    · -- chainOK
      intro p hp
      have hlen : (st.visited ++ [visiting]).length = st.visited.length + 1 := by
        simp
      rcases List.mem_append.1 hp with h | h
      · obtain ⟨l, hl, hlast, hmem⟩ := hInv.chainOK p h
        refine ⟨l, ?_, hlast, fun q hq => List.mem_append_left _ (hmem q hq)⟩
        rw [hlen]
        exact chainFrom_mono _ _ _ _ _ hl (by omega)
      · have hpv : p = visiting := by simpa using h
        subst hpv
        obtain ⟨u, hu⟩ := Option.ne_none_iff_exists'.1 (hInv.openParent p hvmem hvs)
        have huvis : u ∈ st.visited := hInv.parentVis p u hu
        obtain ⟨lu, hlu, hlulast, hlumem⟩ := hInv.chainOK u huvis
        have hhead := (chainFrom_spec _ _ _ _ hlu).1
        refine ⟨p :: lu, ?_, ?_, ?_⟩
        · rw [hlen]
          simp only [chainFrom, hu, hlu]
          rfl
        · cases lu with
          | nil => simp at hhead
          | cons b t => rw [List.getLast?_cons_cons]; exact hlulast
        · intro q hq
          rcases List.mem_cons.1 hq with rfl | hq2
          · exact List.mem_append_right _ (by simp)
          · exact List.mem_append_left _ (hlumem q hq2)
    · -- visMem
      intro p hp
      rcases List.mem_append.1 hp with h | h
      · exact hInv.visMem p h
      · have hpv : p = visiting := by simpa using h
        exact hpv ▸ hInv.openMem visiting hvmem
    · -- openMem
      intro p hp
      exact hInv.openMem p (List.erase_subset _ _ hp)
  · -- initial situation: visited is empty, the open set is exactly [start]
    rw [htve] at htv
    injection htv with h1 h2
    subst h1
    subst h2
    have hvs : visiting = s := by rw [hvst]; rfl
    subst hvs
    refine ⟨?_, hcov⟩
    rw [hve]
    refine Core.mk (by simp) ?_ ?_ (by simp) ?_ ?_ (hpnone visiting) ?_ ?_ ?_ ?_ ?_ ?_ ?_ ?_
    · rw [htve]
      exact List.Nodup.erase _ (by simp)
    · intro p hp
      rw [htve] at hp
      simp at hp
    · intro p q h
      exact absurd (hpnone p ▸ h) (by simp)
    · intro p q h
      exact absurd (hpnone p ▸ h) (by simp)
    · intro p hp
      rw [htve] at hp
      simp at hp
    · intro p hp hps
      have : p = visiting := by simpa using hp
      exact absurd this hps
    · intro p hp
      exact Or.inl (by simp [hcost p hp])
    · intro p hp
      have : p = visiting := by simpa using hp
      exact this ▸ AlgoReach.refl
    · intro p hp
      rw [htve] at hp
      simp at hp
    · intro p hp
      have hpv : p = visiting := by simpa using hp
      subst hpv
      refine ⟨[p], ?_, by simp, by simp⟩
      simp only [List.nil_append, List.length_singleton, chainFrom, hpnone p]
    · intro p hp
      have hpv : p = visiting := by simpa using hp
      exact Or.inl hpv
    · intro p hp
      rw [htve] at hp
      simp at hp

/-- One full non-goal iteration of the loop body re-establishes the
invariant and closes exactly one more cell. -/
theorem loop_iteration (g : Grid) (s goalP : Pt) (st : SearchState) (x : Pt) (xs : List Pt)
    (visiting : Pt) (st1 st2 : SearchState)
    (hInv : Inv g s goalP st) (htv : st.toVisit = x :: xs)
    (hvst : visiting = minByCost st.cost x xs)
    (hst1 : st1 = { st with
        visited := st.visited ++ [visiting]
        toVisit := st.toVisit.erase visiting })
    (hst2 : st2 = (g.neighboursP visiting ADJACENTS).foldl (relaxOne g goalP visiting) st1)
    (hgoal : visiting ≠ goalP) :
    Inv g s goalP st2 ∧ st2.visited = st.visited ++ [visiting] := by
  obtain ⟨hc1, hcov⟩ := pop_preserves g s goalP st x xs visiting st1 hInv htv hvst hst1
  have hv1 : visiting ∈ st1.visited := by
    rw [hst1]
    exact List.mem_append_right _ (by simp)
  obtain ⟨hc2, hvis2, hmono2, hcov2⟩ :=
    relaxFold_preserves g s goalP visiting (g.neighboursP visiting ADJACENTS) st1 hc1 hv1
      (fun n hn => hn)
  rw [← hst2] at hc2 hvis2 hmono2 hcov2
  have hvis2' : st2.visited = st.visited ++ [visiting] := by
    rw [hvis2, hst1]
  refine ⟨?_, hvis2'⟩
  refine Inv.mk hc2.nodupV hc2.nodupT hc2.disj (Or.inl hc2.sVis) ?_ hc2.parentVis
    hc2.parentEdge hc2.sNone hc2.openParent hc2.visParent hc2.finCost hc2.reachV hc2.reachT
    hc2.chainOK hc2.visMem hc2.openMem ?_
  · -- the goal has still not been closed
    rw [hvis2']
    intro hmem
    rcases List.mem_append.1 hmem with h | h
    · exact hInv.tNot h
    · exact hgoal (Eq.symm (by simpa using h))
  · -- every closed cell keeps its traversable neighbours covered
    intro u hu n hn htr
    rw [hvis2'] at hu
    rcases List.mem_append.1 hu with h | h
    · rcases hcov u h n hn htr with h2 | h2
      · exact Or.inl (by rw [hvis2]; exact h2)
      · exact Or.inr (hmono2 _ h2)
    · have hu2 : u = visiting := by simpa using h
      subst hu2
      rcases hcov2 n hn htr with h2 | h2
      · exact Or.inl h2
      · exact Or.inr h2

/-- A duplicate-free list of closed cells (each the start or a grid cell
position) has at most one cell more than the grid. -/
theorem visited_le (g : Grid) (s : Pt) (vis : List Pt) (hnd : vis.Nodup)
    (hmem : ∀ p ∈ vis, p = s ∨ ∃ n ∈ g.nodes, n.position = p) :
    vis.length ≤ g.nodes.length + 1 := by
  classical
  have hsub : vis.toFinset ⊆ (s :: g.nodes.map Node.position).toFinset := by
    intro p hp
    rw [List.mem_toFinset] at hp ⊢
    rcases hmem p hp with h | ⟨n, hn, hpos⟩
    · simp [h]
    · exact List.mem_cons.2 (Or.inr (List.mem_map.2 ⟨n, hn, hpos⟩))
  calc vis.length = vis.toFinset.card := (List.toFinset_card_of_nodup hnd).symm
    _ ≤ (s :: g.nodes.map Node.position).toFinset.card := Finset.card_le_card hsub
    _ ≤ (s :: g.nodes.map Node.position).length := List.toFinset_card_le _
    _ = g.nodes.length + 1 := by simp

theorem astarLoop_nil (g : Grid) (dirs : List Pt)
    (relax : Grid → Pt → Pt → SearchState → Node → SearchState) (goalP : Pt)
    (fuel : Nat) (st : SearchState) (htv : st.toVisit = []) :
    astarLoop g dirs relax goalP (fuel + 1) st = some [] := by
  simp [astarLoop, htv]

/-- Unfolding of one loop iteration when the open set is non-empty. -/
theorem astarLoop_cons (g : Grid) (dirs : List Pt)
    (relax : Grid → Pt → Pt → SearchState → Node → SearchState) (goalP : Pt)
    (fuel : Nat) (st : SearchState) (x : Pt) (xs : List Pt) (htv : st.toVisit = x :: xs) :
    astarLoop g dirs relax goalP (fuel + 1) st =
      if minByCost st.cost x xs = goalP then
        (chainFrom st.parent (st.visited ++ [minByCost st.cost x xs]).length
          (minByCost st.cost x xs)).map List.reverse
      else
        astarLoop g dirs relax goalP fuel
          ((g.neighboursP (minByCost st.cost x xs) dirs).foldl
            (relax g goalP (minByCost st.cost x xs))
            { st with
              visited := st.visited ++ [minByCost st.cost x xs]
              toVisit := st.toVisit.erase (minByCost st.cost x xs) }) := by
  simp only [astarLoop, htv]

/-- C10 machinery: with the fuel `astar` supplies, the loop always returns
a result (each iteration closes a fresh cell; closed cells are never
re-opened; the number of closable cells is bounded by the grid size). -/
theorem loop_isSome (g : Grid) (s goalP : Pt) :
    ∀ (fuel : Nat) (st : SearchState), Inv g s goalP st →
      g.nodes.length + 2 ≤ st.visited.length + fuel →
      (astarLoop g ADJACENTS relaxOne goalP fuel st).isSome := by
  intro fuel
  induction fuel with
  | zero =>
    intro st hInv hb
    have := visited_le g s st.visited hInv.nodupV hInv.visMem
    omega
  | succ m ih =>
    intro st hInv hb
    cases htv : st.toVisit with
    | nil => rw [astarLoop_nil g ADJACENTS relaxOne goalP m st htv]; rfl
    | cons x xs =>
      rw [astarLoop_cons g ADJACENTS relaxOne goalP m st x xs htv]
      by_cases hg : minByCost st.cost x xs = goalP
      · rw [if_pos hg]
        obtain ⟨hc1, _⟩ := pop_preserves g s goalP st x xs (minByCost st.cost x xs)
          { st with
            visited := st.visited ++ [minByCost st.cost x xs]
            toVisit := st.toVisit.erase (minByCost st.cost x xs) } hInv htv rfl rfl
        obtain ⟨l, hl, _, _⟩ := hc1.chainOK (minByCost st.cost x xs)
          (List.mem_append_right _ (by simp))
        rw [hl]
        rfl
      · rw [if_neg hg]
        obtain ⟨hInv2, hveq⟩ := loop_iteration g s goalP st x xs (minByCost st.cost x xs)
          { st with
            visited := st.visited ++ [minByCost st.cost x xs]
            toVisit := st.toVisit.erase (minByCost st.cost x xs) } _ hInv htv rfl rfl rfl hg
        apply ih _ hInv2
        rw [hveq]
        simp only [List.length_append, List.length_singleton]
        omega

/-- In a chain that starts at `s`, every element is `s` or has an
`R`-predecessor. -/
theorem chain_elems (R : Pt → Pt → Prop) :
    ∀ (l : List Pt) (s : Pt), l.head? = some s → l.Chain' R →
      ∀ p ∈ l, p = s ∨ ∃ q, R q p := by
  intro l
  induction l with
  | nil => intro s h; simp at h
  | cons a rest ih =>
    intro s hh hc p hp
    have ha : a = s := by simpa using hh
    rcases List.mem_cons.1 hp with rfl | hp2
    · exact Or.inl ha
    · cases rest with
      | nil => simp at hp2
      | cons b t =>
        have hR : R a b := (List.chain'_cons.1 hc).1
        have hc2 : (b :: t).Chain' R := (List.chain'_cons.1 hc).2
        rcases ih b (by simp) hc2 p hp2 with h | h
        · exact Or.inr ⟨a, h ▸ hR⟩
        · exact Or.inr h

/-- Structure of any value the loop returns: the reconstructed path follows
the algorithm's edge relation, starts at the start cell, ends at the goal,
and certifies the goal's reachability in that relation. -/
theorem loop_result (g : Grid) (s goalP : Pt) :
    ∀ (fuel : Nat) (st : SearchState) (l : List Pt), Inv g s goalP st →
      astarLoop g ADJACENTS relaxOne goalP fuel st = some l →
      l.Chain' (algoEdge g) ∧
      (l ≠ [] → l.head? = some s ∧ l.getLast? = some goalP ∧ AlgoReach g s goalP ∧
        ∀ p ∈ l, p = s ∨ ∃ q, algoEdge g q p) := by
  intro fuel
  induction fuel with
  | zero => intro st l _ h; exact absurd h (by simp [astarLoop])
  | succ m ih =>
    intro st l hInv h
    cases htv : st.toVisit with
    | nil =>
      rw [astarLoop_nil g ADJACENTS relaxOne goalP m st htv] at h
      have hl : l = [] := by simpa using h.symm
      subst hl
      exact ⟨by simp, fun hne => absurd rfl hne⟩
    | cons x xs =>
      rw [astarLoop_cons g ADJACENTS relaxOne goalP m st x xs htv] at h
      by_cases hg : minByCost st.cost x xs = goalP
      · rw [if_pos hg] at h
        obtain ⟨hc1, _⟩ := pop_preserves g s goalP st x xs (minByCost st.cost x xs)
          { st with
            visited := st.visited ++ [minByCost st.cost x xs]
            toVisit := st.toVisit.erase (minByCost st.cost x xs) } hInv htv rfl rfl
        obtain ⟨lc, hlc, hlast, hmem⟩ := hc1.chainOK (minByCost st.cost x xs)
          (List.mem_append_right _ (by simp))
        dsimp only at hlc
        rw [hlc] at h
        have hl : l = lc.reverse := by simpa using h.symm
        obtain ⟨hhead, hchain, r, hrlast, hrnone⟩ := chainFrom_spec _ _ _ _ hlc
        subst hl
        have hchain' : (lc.reverse).Chain' (algoEdge g) := by
          rw [List.chain'_reverse]
          exact hchain.imp (fun a b hab => hc1.parentEdge a b hab)
        have hhead' : (lc.reverse).head? = some s := by
          rw [List.head?_reverse]
          exact hlast
        refine ⟨hchain', fun _ => ⟨hhead', ?_, ?_, chain_elems _ _ s hhead' hchain'⟩⟩
        · rw [List.getLast?_reverse, hhead]
          exact congrArg some hg
        · exact hg ▸ hc1.reachV _ (List.mem_append_right _ (by simp))
      · rw [if_neg hg] at h
        obtain ⟨hInv2, _⟩ := loop_iteration g s goalP st x xs _ _ _ hInv htv rfl rfl rfl hg
        exact ih _ l hInv2 h

/-- Completeness: when a traversable 8-connected route to the goal exists,
the loop never answers with the empty path. -/
theorem loop_complete (g : Grid) (s goalP : Pt) (hw : WellFormed g)
    (P : List Pt) (hP : IsPath g P s goalP) :
    ∀ (fuel : Nat) (st : SearchState) (l : List Pt), Inv g s goalP st →
      astarLoop g ADJACENTS relaxOne goalP fuel st = some l → l ≠ [] := by
  intro fuel
  induction fuel with
  | zero => intro st l _ h; exact absurd h (by simp [astarLoop])
  | succ m ih =>
    intro st l hInv h
    cases htv : st.toVisit with
    | nil =>
      exfalso
      have hsv : s ∈ st.visited := by
        rcases hInv.hs with h1 | ⟨_, h2, _, _⟩
        · exact h1
        · rw [h2] at htv
          exact absurd htv (by simp)
      have hclosed : closedUnder8 g st.visited := by
        intro p hp d hd hb htr
        have hstep : step8 p (p.1 + d.1, p.2 + d.2) := by
          unfold step8
          simpa using hd
        obtain ⟨n, hn, hpos, htrn⟩ := step8_algoEdge hw hb htr hstep
        rcases hInv.frontier p hp n hn htrn with h2 | h2
        · exact hpos ▸ h2
        · rw [htv] at h2
          exact absurd h2 (by simp)
      exact hInv.tNot (isPath_stays g st.visited hclosed P s goalP hP hsv)
    | cons x xs =>
      rw [astarLoop_cons g ADJACENTS relaxOne goalP m st x xs htv] at h
      by_cases hg : minByCost st.cost x xs = goalP
      · rw [if_pos hg] at h
        cases hc : chainFrom st.parent (st.visited ++ [minByCost st.cost x xs]).length
            (minByCost st.cost x xs) with
        | none => rw [hc] at h; exact absurd h (by simp)
        | some lc =>
          rw [hc] at h
          have hl : l = lc.reverse := by simpa using h.symm
          have hhead := (chainFrom_spec _ _ _ _ hc).1
          subst hl
          intro hnil
          rw [List.reverse_eq_nil_iff] at hnil
          subst hnil
          simp at hhead
      · rw [if_neg hg] at h
        obtain ⟨hInv2, _⟩ := loop_iteration g s goalP st x xs _ _ _ hInv htv rfl rfl rfl hg
        exact ih _ l hInv2 h

/-- The invariant holds at the initial state of every search. -/
theorem inv_init (g : Grid) (s goalP : Pt) : Inv g s goalP (astarInit s goalP) := by
  constructor
  case nodupV => simp [astarInit]
  case nodupT => simp [astarInit]
  case disj => intro p _; simp [astarInit]
  case hs =>
    refine Or.inr ⟨rfl, rfl, fun q => rfl, fun q hq => ?_⟩
    by_contra hne
    exact hq (by simp [astarInit, hne])
  case tNot => simp [astarInit]
  case parentVis => intro p q h; exact absurd h (by simp [astarInit])
  case parentEdge => intro p q h; exact absurd h (by simp [astarInit])
  case sNone => rfl
  case openParent =>
    intro p hp hne
    exact absurd (by simpa [astarInit] using hp) hne
  case visParent => intro p hp; exact absurd hp (by simp [astarInit])
  case finCost =>
    intro p hp
    right
    have hps : p = s := by
      by_contra hne
      exact hp (by simp [astarInit, hne])
    simp [astarInit, hps]
  case reachV => intro p hp; exact absurd hp (by simp [astarInit])
  case reachT =>
    intro p hp
    have hps : p = s := by simpa [astarInit] using hp
    exact hps ▸ AlgoReach.refl
  case chainOK => intro p hp; exact absurd hp (by simp [astarInit])
  case visMem => intro p hp; exact absurd hp (by simp [astarInit])
  case openMem =>
    intro p hp
    exact Or.inl (by simpa [astarInit] using hp)
  case frontier => intro u hu; exact absurd hu (by simp [astarInit])

/-! ### Claim C10 -/

/-- C10: `astar` terminates on every grid and every start/goal pair: each
iteration moves the minimum-cost open cell into the closed list, closed
cells are never expanded or re-opened, and the closed list grows strictly
while being bounded by the number of cells plus one — so the fuel
`g.nodes.length + 2` supplied by `astar` is never exhausted and the loop
(modelled with that fuel) always produces a result. -/
theorem c10_terminates (g : Grid) (s t : Pt) : (astarWithDirs g ADJACENTS s t).isSome := by
  unfold astarWithDirs
  refine loop_isSome g s t (g.nodes.length + 2) (astarInit s t) (inv_init g s t) ?_
  simp [astarInit]

/-! ### Claim C2 amended -/

/-- C2 amended: for every well-formed grid and every pair joined by a
traversable 8-connected route, `astar` returns a non-empty sequence that
begins with `start`, ends with `goal`, and consists of traversable cells;
consecutive cells are adjacent under the *algorithm's* neighbour relation —
which, because the flat-index lookup never checks `x < width`, also relates
a right-edge cell to wrapped cells of later rows (see `c2_counterexample`)
— rather than under geometric 8-adjacency. -/
theorem c2_amended (g : Grid) (s t : Pt) (P : List Pt)
    (hw : WellFormed g) (hP : IsPath g P s t) :
    astar g s t ≠ [] ∧ (astar g s t).head? = some s ∧ (astar g s t).getLast? = some t ∧
      (astar g s t).Chain' (algoEdge g) ∧ ∀ p ∈ astar g s t, traversableAt g p = true := by
  unfold astar astarWithDirs
  cases hres : astarLoop g ADJACENTS relaxOne t (g.nodes.length + 2) (astarInit s t) with
  | none =>
    have hsome := c10_terminates g s t
    unfold astarWithDirs at hsome
    rw [hres] at hsome
    exact absurd hsome (by simp)
  | some l =>
    have hne : l ≠ [] := loop_complete g s t hw P hP _ _ l (inv_init g s t) hres
    obtain ⟨hchain, hfacts⟩ := loop_result g s t _ _ l (inv_init g s t) hres
    obtain ⟨hhead, hlast, _, helems⟩ := hfacts hne
    simp only [Option.getD_some]
    refine ⟨hne, hhead, hlast, hchain, ?_⟩
    intro p hp
    rcases helems p hp with rfl | ⟨q, hq⟩
    · have hsP : p ∈ P := by
        obtain ⟨hne', hh, _, _, _⟩ := hP
        cases P with
        | nil => exact absurd rfl hne'
        | cons a t2 =>
          have ha : a = p := by simpa using hh
          simp [ha]
      exact (hP.2.2.2.1 p hsP).2
    · exact edge_target_trav hw hq

/-- Witness for `c2_amended` on the spec's minimal 3×1 scenario. -/
theorem c2_amended_witness :
    astar gridRow1 (0, 0) (2, 0) ≠ [] ∧
      (astar gridRow1 (0, 0) (2, 0)).head? = some (0, 0) ∧
      (astar gridRow1 (0, 0) (2, 0)).getLast? = some (2, 0) ∧
      (astar gridRow1 (0, 0) (2, 0)).Chain' (algoEdge gridRow1) ∧
      ∀ p ∈ astar gridRow1 (0, 0) (2, 0), traversableAt gridRow1 p = true :=
  c2_amended gridRow1 (0, 0) (2, 0) [(0, 0), (1, 0), (2, 0)] (by decide) (by decide)

/-! ### Claim C3 amended -/

/-- C3 amended: edge expansion uses the 8-element adjacent direction set,
not the cardinal set: every consecutive pair of any returned path is related
by the adjacent-direction neighbour enumeration (with its traversability
filter), for every grid and every start/goal pair. -/
theorem c3_adjacent_expansion (g : Grid) (s t : Pt) :
    (astar g s t).Chain' (algoEdge g) := by
  unfold astar astarWithDirs
  cases hres : astarLoop g ADJACENTS relaxOne t (g.nodes.length + 2) (astarInit s t) with
  | none => simp
  | some l =>
    have := (loop_result g s t _ _ l (inv_init g s t) hres).1
    simpa using this

/-! ### Claim C9 amended -/

/-- C9 amended: a non-empty result certifies that the goal is reachable from
the start in the algorithm's own neighbour relation (8-adjacency extended by
the wrapped right-edge lookups); contrapositively, pairs with no such route
yield the empty sequence as a normal result.  In particular, on the spec's
3×1 blocked scenario `".#."` the result is `[]`. -/
theorem c9_empty_when_unreachable :
    (∀ (g : Grid) (s t : Pt), astar g s t ≠ [] → AlgoReach g s t) ∧
      astar gridRow3 (0, 0) (2, 0) = [] := by
  constructor
  · intro g s t hne
    unfold astar astarWithDirs at hne
    cases hres : astarLoop g ADJACENTS relaxOne t (g.nodes.length + 2) (astarInit s t) with
    | none => rw [hres] at hne; simp at hne
    | some l =>
      rw [hres] at hne
      simp only [Option.getD_some] at hne
      obtain ⟨_, hfacts⟩ := loop_result g s t _ _ l (inv_init g s t) hres
      exact (hfacts hne).2.2.1
  · decide

/-- Witness for the implication inside `c9_empty_when_unreachable`: a
non-empty concrete run yields reachability in the algorithm's relation. -/
theorem c9_empty_when_unreachable_witness : AlgoReach gridSplit (2, 0) (0, 0) :=
  c9_empty_when_unreachable.1 gridSplit (2, 0) (0, 0) (by decide)

end PF
